import Mathlib

/-!
Verification of the controller-group resolver of `src/lib/entity.ts`.

The TypeScript source is shallowly embedded below.  JavaScript `Map` and
`Set` iterate in insertion order, so they are modelled by association
lists whose `set` updates an existing key in place and appends a fresh
key at the end (`SMap`), and by duplicate-free lists grown with
`addUnique`.  JavaScript numbers are modelled by `ℚ` (all quantities the
scoring formula produces are exact multiples of 1/20, so rational
arithmetic is exact here); rational constants and sums are written with
`mkRat`-based helpers that the kernel can evaluate, and are proved equal
to the ordinary `ℚ` operations.  String comparison (`<` on JS strings)
is code-unit lexicographic order, modelled by `lexLt` on the character
list.  String primitives used by the source (`toLowerCase`, `trim`,
`split`, `join`, `startsWith`) are modelled by character-list functions
so that concrete runs reduce inside the kernel.  JS falsiness is modelled
wherever the source relies on it: `size.get(r) || 1` (`orOne`), the
skipped falsy handle stems, and the `if (!p) return x` of `find`, which
treats an empty-string parent entry like a missing one.
-/

/-- Insertion-ordered string-keyed map, the model of a JS `Map`.  `set` on a
present key updates the entry in place, otherwise it appends at the end,
exactly like JS `Map.prototype.set`. -/
structure SMap (α : Type) where
  entries : List (String × α)
deriving DecidableEq

namespace SMap

def empty {α : Type} : SMap α := ⟨[]⟩

def get {α : Type} (m : SMap α) (k : String) : Option α :=
  (m.entries.find? (fun e => e.1 == k)).map (fun e => e.2)

def hasKey {α : Type} (m : SMap α) (k : String) : Bool :=
  m.entries.any (fun e => e.1 == k)

def set {α : Type} (m : SMap α) (k : String) (v : α) : SMap α :=
  if m.hasKey k then
    ⟨m.entries.map (fun e => if e.1 == k then (k, v) else e)⟩
  else ⟨m.entries ++ [(k, v)]⟩

def keys {α : Type} (m : SMap α) : List String :=
  m.entries.map (fun e => e.1)

end SMap

/-- Model of a JS `Set<string>` grown by `add`: append iff not yet present. -/
def addUnique (l : List String) (x : String) : List String :=
  if l.contains x then l else l ++ [x]

/-- `new Set(list)` : de-duplicate keeping first occurrences. -/
def dedup (l : List String) : List String :=
  l.foldl addUnique []

/-- Code-unit lexicographic strict order on character lists: the model of
JS `<` on strings (identical to it on ASCII data). -/
def lexLt : List Char → List Char → Bool
  | [], [] => false
  | [], _ :: _ => true
  | _ :: _, [] => false
  | a :: as, b :: bs => if a < b then true else if b < a then false else lexLt as bs

/-- Non-strict string order used to model JS default string sorting. -/
def strLE (a b : String) : Prop := lexLt b.data a.data = false

instance : DecidableRel strLE := fun a b => by
  unfold strLE; infer_instance

theorem lexLt_irrefl (l : List Char) : lexLt l l = false := by
  induction l with
  | nil => rfl
  | cons a as ih => simp [lexLt, ih]

theorem lexLt_asymm : ∀ l m : List Char, lexLt l m = true → lexLt m l = false
  | [], [], h => by simp [lexLt] at h
  | [], _ :: _, _ => rfl
  | _ :: _, [], h => by simp [lexLt] at h
  | a :: as, b :: bs, h => by
    by_cases hab : a < b
    · simp [lexLt, hab, asymm hab, (lt_asymm hab : ¬ b < a)]
    · by_cases hba : b < a
      · simp [lexLt, hab, hba] at h
      · simpa [lexLt, hab, hba] using lexLt_asymm as bs (by simpa [lexLt, hab, hba] using h)

theorem lexLt_trichot : ∀ l m : List Char, lexLt l m = true ∨ l = m ∨ lexLt m l = true
  | [], [] => Or.inr (Or.inl rfl)
  | [], _ :: _ => Or.inl rfl
  | _ :: _, [] => Or.inr (Or.inr rfl)
  | a :: as, b :: bs => by
    rcases lt_trichotomy a b with hab | hab | hab
    · exact Or.inl (by simp [lexLt, hab])
    · subst hab
      rcases lexLt_trichot as bs with h | h | h
      · exact Or.inl (by simp [lexLt, lt_irrefl, h])
      · exact Or.inr (Or.inl (by rw [h]))
      · exact Or.inr (Or.inr (by simp [lexLt, lt_irrefl, h]))
    · exact Or.inr (Or.inr (by simp [lexLt, hab, asymm hab]))

theorem lexLt_trans : ∀ l m k : List Char,
    lexLt l m = true → lexLt m k = true → lexLt l k = true
  | [], [], _, h, _ => by simp [lexLt] at h
  | [], _ :: _, [], _, h => by simp [lexLt] at h
  | [], _ :: _, _ :: _, _, _ => rfl
  | _ :: _, [], _, h, _ => by simp [lexLt] at h
  | _ :: _, _ :: _, [], _, h => by simp [lexLt] at h
  | a :: as, b :: bs, c :: cs, h1, h2 => by
    by_cases hab : a < b
    · by_cases hbc : b < c
      · simp [lexLt, lt_trans hab hbc]
      · by_cases hcb : c < b
        · simp [lexLt, hbc, hcb] at h2
        · have hbc' : b = c := le_antisymm (not_lt.mp hcb) (not_lt.mp hbc)
          have hac : a < c := hbc' ▸ hab
          simp [lexLt, hac]
    · by_cases hba : b < a
      · simp [lexLt, hab, hba] at h1
      · have hab' : a = b := le_antisymm (not_lt.mp hba) (not_lt.mp hab)
        have h1' : lexLt as bs = true := by simpa [lexLt, hab, hba] using h1
        by_cases hbc : b < c
        · have hac : a < c := hab' ▸ hbc
          simp [lexLt, hac]
        · by_cases hcb : c < b
          · simp [lexLt, hbc, hcb] at h2
          · have hbc' : b = c := le_antisymm (not_lt.mp hcb) (not_lt.mp hbc)
            have h2' : lexLt bs cs = true := by simpa [lexLt, hbc, hcb] using h2
            have hac : a = c := hab'.trans hbc'
            rw [← hac]
            simp [lexLt, lt_irrefl]
            exact lexLt_trans as bs cs h1' h2'

instance : IsTotal String strLE := by
  constructor
  intro a b
  unfold strLE
  by_cases h : lexLt b.data a.data = true
  · exact Or.inr (lexLt_asymm _ _ h)
  · exact Or.inl (by simpa using h)

instance : IsTrans String strLE := by
  constructor
  intro a b c h1 h2
  unfold strLE at h1 h2 ⊢
  by_contra hca
  have hca' : lexLt c.data a.data = true := by simpa using hca
  rcases lexLt_trichot a.data b.data with h | h | h
  · have : lexLt c.data b.data = true := lexLt_trans _ _ _ hca' h
    rw [h2] at this
    exact Bool.false_ne_true this
  · rw [← h] at h2
    rw [h2] at hca'
    exact Bool.false_ne_true hca'
  · rw [h1] at h
    exact Bool.false_ne_true h

/-- Character-level `startsWith`, the model of JS `String.prototype.startsWith`
(and of anchored `replace(/^www\./, ...)` tests). -/
def isPrefixChars : List Char → List Char → Bool
  | [], _ => true
  | _ :: _, [] => false
  | a :: as, b :: bs => a == b && isPrefixChars as bs

def startsWithStr (s pre : String) : Bool := isPrefixChars pre.data s.data

/-- Model of JS `String.prototype.toLowerCase` (exact on ASCII data). -/
def toLowerStr (s : String) : String := String.mk (s.data.map Char.toLower)

/-- Model of JS `String.prototype.trim`. -/
def trimStr (s : String) : String :=
  String.mk (((s.data.dropWhile Char.isWhitespace).reverse.dropWhile Char.isWhitespace).reverse)

def dropStr (s : String) (n : Nat) : String := String.mk (s.data.drop n)

/-- Model of JS `Array.prototype.join`. -/
def joinWith (sep : String) : List String → String
  | [] => ""
  | [x] => x
  | x :: y :: rest => x ++ sep ++ joinWith sep (y :: rest)

/-- Split helper for the model of JS `String.prototype.split`. -/
def splitOnCharsAux (sep : List Char) : Nat → List Char → List Char → List (List Char)
  | 0, cur, _ => [cur.reverse]
  | _ + 1, cur, [] => [cur.reverse]
  | fuel + 1, cur, c :: rest =>
    if isPrefixChars sep (c :: rest) then
      cur.reverse :: splitOnCharsAux sep fuel [] ((c :: rest).drop sep.length)
    else
      splitOnCharsAux sep fuel (c :: cur) rest

/-- Model of JS `String.prototype.split` with a non-empty string separator. -/
def splitStr (s sep : String) : List String :=
  if sep.data.isEmpty then [s]
  else (splitOnCharsAux sep.data s.data.length [] s.data).map String.mk

/-!  Union-find substrate, embedding `makeUnionFind` of `src/lib/entity.ts`.
The source `find` begins `const p = parent.get(x); if (!p) return x;`:
by JS falsiness both a missing parent entry and an empty-string parent
terminate the walk, so a node whose stored parent is `""` behaves as a
root.  `find` then recurses through parent pointers and path-compresses on
the way back; all its reads precede all its writes, so it is embedded as
a fuel-indexed function that reads the incoming map and threads the
compression writes through the result.  The fuel `entries.length + 1`
dominates the chain length whenever the followed (non-empty, non-self)
parent edges are acyclic, which is an invariant of every reachable state
(proved below). -/

structure UnionFind where
  parent : SMap String
  size : SMap Nat
deriving DecidableEq

def makeUnionFind (items : List String) : UnionFind :=
  items.foldl (fun uf x => ⟨uf.parent.set x x, uf.size.set x 1⟩) ⟨SMap.empty, SMap.empty⟩

def findAux : Nat → SMap String → String → String × SMap String
  | 0, p, x => (x, p)
  | fuel + 1, p, x =>
    match p.get x with
    | none => (x, p)
    | some px =>
      if px = "" then (x, p)
      else if px = x then (x, p)
      else
        let res := findAux fuel p px
        (res.1, res.2.set x res.1)

def UnionFind.find (uf : UnionFind) (x : String) : String × UnionFind :=
  let r := findAux (uf.parent.entries.length + 1) uf.parent x
  (r.1, ⟨r.2, uf.size⟩)

/-- JS `size.get(r) || 1`: `0` is falsy, so both a missing and a zero entry
give `1`. -/
def orOne : Option Nat → Nat
  | none => 1
  | some n => if n == 0 then 1 else n

def UnionFind.union (uf : UnionFind) (a b : String) : UnionFind :=
  let fa := uf.find a
  let ra := fa.1
  let fb := fa.2.find b
  let rb := fb.1
  let uf2 := fb.2
  if ra = rb then uf2
  else
    let sa := orOne (uf2.size.get ra)
    let sb := orOne (uf2.size.get rb)
    if sa < sb then ⟨uf2.parent.set ra rb, uf2.size.set rb (sa + sb)⟩
    else ⟨uf2.parent.set rb ra, uf2.size.set ra (sa + sb)⟩

/-!  Signal-extraction helpers of `src/lib/entity.ts`. -/

/-- `/^0x[a-fA-F0-9]{40}$/.test x` -/
def isHexDigitChar (c : Char) : Bool :=
  c.isDigit || ('a' ≤ c && c ≤ 'f') || ('A' ≤ c && c ≤ 'F')

def looksLikeEvmAddress (x : String) : Bool :=
  match x.data with
  | '0' :: 'x' :: hex => hex.length == 40 && hex.all isHexDigitChar
  | _ => false

/-- JS word character (`\w`), as used by the `\b` boundaries of the scan
regex. -/
def isWordChar (c : Char) : Bool := c.isAlphanum || c == '_'

/-- Whether `\b0x[a-fA-F0-9]{40}\b` matches at the head of `cs` (the
boundary before the head is checked by the caller). -/
def evmMatchAt (cs : List Char) : Bool :=
  (match cs.take 42 with
   | '0' :: 'x' :: hex => hex.length == 40 && hex.all isHexDigitChar
   | _ => false) &&
  (match cs.drop 42 with
   | [] => true
   | c :: _ => !isWordChar c)

/-- The repeated-`exec` scan of `extractEvmAddressesFromText`: advance one
character at a time, emit a lowercased match and jump past it when the
regex matches at the current position.  `prev` holds the character before
the current position for the leading `\b`; the fuel starts at the text
length and dominates the number of scan steps. -/
def scanEvmAux : Nat → Option Char → List Char → List String
  | 0, _, _ => []
  | fuel + 1, prev, cs =>
    match cs with
    | [] => []
    | c :: rest =>
      if (match prev with | none => true | some p => !isWordChar p) && evmMatchAt cs then
        toLowerStr (String.mk (cs.take 42)) ::
          scanEvmAux fuel (some ((cs.take 42).getLastD c)) (cs.drop 42)
      else
        scanEvmAux fuel (some c) rest

def extractEvmAddressesFromText (text : String) : List String :=
  scanEvmAux text.data.length none text.data

/-- Modelled platform API (not repository code): the WHATWG `URL`
constructor as used here, i.e. `new URL(l)` followed by reading
`hostname`.  Accepts `scheme://rest` with a non-empty alphabetic scheme;
the hostname is the part of `rest` before the first `/ : ? #`, lowercased
(the URL parser lowercases host names); anything else fails to parse. -/
def parseUrlHostname (s : String) : Option String :=
  match splitStr s "://" with
  | scheme :: rest :: more =>
    if scheme.data.isEmpty || !(scheme.data.all Char.isAlpha) then none
    else
      let after := joinWith "://" (rest :: more)
      let host := String.mk (after.data.takeWhile
        (fun c => !(c == '/' || c == ':' || c == '?' || c == '#')))
      if host.data.isEmpty then none else some (toLowerStr host)
  | _ => none

/-- `extractDomains`: parse each link, keep the hostname stripped of a
leading `www.` and lowercased, silently skipping malformed links. -/
def extractDomains (links : List String) : List String :=
  links.filterMap (fun l => (parseUrlHostname l).map (fun h =>
    toLowerStr (if startsWithStr h "www." then dropStr h 4 else h)))

def COMMON_DOMAINS : List String :=
  ["github.com", "gist.github.com", "raw.githubusercontent.com", "twitter.com",
   "x.com", "talent.app", "warpcast.com", "farcaster.xyz", "t.me", "telegram.me",
   "discord.gg", "discord.com", "linktr.ee", "medium.com", "youtube.com", "youtu.be"]

/-!  The resolver `computeControllerGroups`. -/

structure ControllerGroup where
  controllerId : Nat
  members : List String
  score : ℚ
  evidence : List String
deriving DecidableEq

structure GroupInput where
  actors : List String
  linksByActor : SMap (List String)
  bioByActor : SMap String
  handleStemByActor : SMap String
  sharedFundersByWallet : SMap (List String)
  extraWalletsByActor : SMap (List String)
  minGroupSize : Int
deriving DecidableEq

/-- Evidence ledger: pair key `a < b ? a||b : b||a` to insertion-ordered
set of reasons. -/
def pairKey (a b : String) : String :=
  if lexLt a.data b.data then a ++ "||" ++ b else b ++ "||" ++ a

def addEvidence (led : SMap (List String)) (a b reason : String) : SMap (List String) :=
  let k := pairKey a b
  led.set k (addUnique ((led.get k).getD []) reason)

/-- Union-find paired with the evidence ledger, the state the signal
passes mutate. -/
def UFL : Type := UnionFind × SMap (List String)

def connectMany (st : UFL) (members : List String) (reason : String) : UFL :=
  match members with
  | [] => st
  | [_] => st
  | first :: rest =>
    rest.foldl (fun st m => (st.1.union first m, addEvidence st.2 first m reason)) st

/-- Pass 1 grouping: `linkToActors`. -/
def linkToActors (input : GroupInput) : SMap (List String) :=
  input.actors.foldl (fun m a =>
    ((input.linksByActor.get a).getD []).foldl (fun m l =>
      m.set l (addUnique ((m.get l).getD []) a)) m) SMap.empty

def sharedLinkPass (input : GroupInput) (st : UFL) : UFL :=
  (linkToActors input).entries.foldl (fun st e =>
    if e.2.length < 2 then st
    else connectMany st e.2 ("Shared link: " ++ e.1)) st

/-- Pass 2 grouping: `domainToActors`. -/
def domainToActors (input : GroupInput) : SMap (List String) :=
  input.actors.foldl (fun m a =>
    let domains := (extractDomains ((input.linksByActor.get a).getD [])).filter
      (fun d => !(COMMON_DOMAINS.contains d))
    (dedup domains).foldl (fun m d => m.set d (addUnique ((m.get d).getD []) a)) m)
    SMap.empty

def sharedDomainPass (input : GroupInput) (st : UFL) : UFL :=
  (domainToActors input).entries.foldl (fun st e =>
    if e.2.length < 3 then st
    else connectMany st e.2 ("Shared domain: " ++ e.1)) st

/-- Pass 3 grouping: `stemToActors` iterates the `handleStemByActor` map,
skipping falsy (empty) stems. -/
def stemToActors (input : GroupInput) : SMap (List String) :=
  input.handleStemByActor.entries.foldl (fun m e =>
    if e.2 == "" then m
    else m.set e.2 (addUnique ((m.get e.2).getD []) e.1)) SMap.empty

def handleStemPass (input : GroupInput) (st : UFL) : UFL :=
  (stemToActors input).entries.foldl (fun st e =>
    if e.2.length < 4 then st
    else connectMany st e.2 ("Shared handle stem: " ++ e.1)) st

/-- Pass 3b: base handle of `"<platform>:<handle...>"`; identifiers without
a separator and base handles shorter than 3 characters are skipped. -/
def baseOfActor (actor : String) : Option String :=
  match splitStr actor ":" with
  | _ :: rest :: more =>
    let base := toLowerStr (trimStr (joinWith ":" (rest :: more)))
    if base.data.length < 3 then none else some base
  | _ => none

def baseHandleToActors (input : GroupInput) : SMap (List String) :=
  input.actors.foldl (fun m a =>
    match baseOfActor a with
    | none => m
    | some base => m.set base (addUnique ((m.get base).getD []) a)) SMap.empty

def baseHandlePass (input : GroupInput) (st : UFL) : UFL :=
  (baseHandleToActors input).entries.foldl (fun st e =>
    if e.2.length < 2 then st
    else connectMany st e.2 ("Same handle across platforms: " ++ e.1)) st

/-- Pass 4: candidate wallets of one actor — bio text, joined links,
externally supplied extras, and the actor itself when wallet-shaped;
filtered to wallet shape and de-duplicated. -/
def walletsOfActor (input : GroupInput) (a : String) : List String :=
  let fromBio := extractEvmAddressesFromText ((input.bioByActor.get a).getD "")
  let fromLinks := extractEvmAddressesFromText
    (joinWith "\n" ((input.linksByActor.get a).getD []))
  let extra := (input.extraWalletsByActor.get a).getD []
  let selfW := if looksLikeEvmAddress a then [toLowerStr a] else []
  dedup ((fromBio ++ fromLinks ++ extra ++ selfW).filter looksLikeEvmAddress)

def walletToActors (input : GroupInput) : SMap (List String) :=
  input.actors.foldl (fun m a =>
    (walletsOfActor input a).foldl (fun m w =>
      m.set w (addUnique ((m.get w).getD []) a)) m) SMap.empty

def sharedWalletPass (input : GroupInput) (st : UFL) : UFL :=
  (walletToActors input).entries.foldl (fun st e =>
    if e.2.length < 2 then st
    else connectMany st e.2 ("Shared wallet: " ++ e.1)) st

/-- Pass 5: inverse mapping funder → funded wallets, ignoring funder
strings that are not wallet-shaped (the funded-wallet keys are used
verbatim). -/
def funderToWallets (input : GroupInput) : SMap (List String) :=
  input.sharedFundersByWallet.entries.foldl (fun m e =>
    e.2.foldl (fun m f =>
      if looksLikeEvmAddress f then m.set f (addUnique ((m.get f).getD []) e.1)
      else m) m) SMap.empty

def commonFunderPass (input : GroupInput) (st : UFL) : UFL :=
  (funderToWallets input).entries.foldl (fun st e =>
    if e.2.length < 2 then st
    else connectMany st e.2 ("Common funder: " ++ e.1)) st

def afterPasses (input : GroupInput) : UFL :=
  commonFunderPass input (sharedWalletPass input (baseHandlePass input
    (handleStemPass input (sharedDomainPass input (sharedLinkPass input
      (makeUnionFind input.actors, SMap.empty))))))

/-- Component materialization: group the input actors by their root,
threading the path-compression writes of each `find`. -/
def rootToMembers (uf : UnionFind) (actors : List String) :
    SMap (List String) × UnionFind :=
  actors.foldl (fun acc a =>
    let f := acc.2.find a
    (acc.1.set f.1 (((acc.1.get f.1).getD []) ++ [a]), f.2)) (SMap.empty, uf)

/-- All unordered member pairs in sorted-member order, the iteration order
of the evidence scan. -/
def memberPairs : List String → List (String × String)
  | [] => []
  | a :: rest => rest.map (fun b => (a, b)) ++ memberPairs rest

/-- The capped evidence scan: merge each pair's ledger set in order and
stop as soon as 8 reasons have been accumulated (checked after each whole
pair, so the count can overshoot 8). -/
def scanPairs (led : SMap (List String)) : List (String × String) → List String → List String
  | [], acc => acc
  | p :: rest, acc =>
    let acc2 := ((led.get (pairKey p.1 p.2)).getD []).foldl addUnique acc
    if 8 ≤ acc2.length then acc2 else scanPairs led rest acc2

def collectReasons (led : SMap (List String)) (sortedMembers : List String) : List String :=
  scanPairs led (memberPairs sortedMembers) []

/-- Kernel-evaluable exact rational sum; equal to `a + b` (`qadd_eq`). -/
def qadd (a b : ℚ) : ℚ := mkRat (a.num * b.den + b.num * a.den) (a.den * b.den)

theorem qadd_eq (a b : ℚ) : qadd a b = a + b := (Rat.add_def' a b).symm

/-- The confidence score: base 0.25, plus the size ramp capped at 0.25,
plus 0.25 / 0.25 / 0.15 / 0.10 for the wallet / funder / exact-link /
domain indicators, clamped to 1.  Constants are written as exact
rationals (`mkRat k 20` and so on) so the kernel can evaluate them. -/
def scoreOf (reasons : List String) (memberCount : Nat) : ℚ :=
  let hasWallet := reasons.any (fun r => startsWithStr r "Shared wallet:")
  let hasFunder := reasons.any (fun r => startsWithStr r "Common funder:")
  let hasExactLink := reasons.any (fun r => startsWithStr r "Shared link:")
  let hasDomain := reasons.any (fun r => startsWithStr r "Shared domain:")
  let s1 := qadd (mkRat 1 4) (min (mkRat ((memberCount : Int) - 2) 10) (mkRat 1 4))
  let s2 := if hasWallet then qadd s1 (mkRat 1 4) else s1
  let s3 := if hasFunder then qadd s2 (mkRat 1 4) else s2
  let s4 := if hasExactLink then qadd s3 (mkRat 3 20) else s3
  let s5 := if hasDomain then qadd s4 (mkRat 1 10) else s4
  min s5 (mkRat 1 1)

def mkGroup (led : SMap (List String)) (members : List String) (id : Nat) :
    ControllerGroup :=
  let sorted := List.insertionSort strLE members
  let reasons := collectReasons led sorted
  { controllerId := id, members := sorted,
    score := scoreOf reasons sorted.length, evidence := reasons.take 8 }

/-- The output loop: filter by `max 2 minGroupSize`, build each surviving
group with the next sequential identifier, and record every member in the
actor → id map. -/
def buildGroups (led : SMap (List String)) (mgs : Int) :
    List (List String) → Nat → SMap Nat → List ControllerGroup × SMap Nat
  | [], _, acc => ([], acc)
  | members :: rest, nextId, acc =>
    if (members.length : Int) < max 2 mgs then buildGroups led mgs rest nextId acc
    else
      let g := mkGroup led members nextId
      let acc2 := g.members.foldl (fun m a => m.set a g.controllerId) acc
      let r := buildGroups led mgs rest (nextId + 1) acc2
      (g :: r.1, r.2)

/-- The final comparator `(a, b) => b.score - a.score || b.members.length -
a.members.length`, as the total preorder "may come first": descending
score, ties by descending member count. -/
def groupLE (a b : ControllerGroup) : Prop :=
  b.score < a.score ∨ (a.score = b.score ∧ b.members.length ≤ a.members.length)

instance : DecidableRel groupLE := fun a b => by
  unfold groupLE; infer_instance

instance : IsTotal ControllerGroup groupLE := by
  constructor
  intro a b
  unfold groupLE
  rcases lt_trichotomy a.score b.score with h | h | h
  · exact Or.inr (Or.inl h)
  · rcases le_total b.members.length a.members.length with hl | hl
    · exact Or.inl (Or.inr ⟨h, hl⟩)
    · exact Or.inr (Or.inr ⟨h.symm, hl⟩)
  · exact Or.inl (Or.inl h)

instance : IsTrans ControllerGroup groupLE := by
  constructor
  intro a b c h1 h2
  unfold groupLE at h1 h2 ⊢
  rcases h1 with h1 | ⟨h1e, h1l⟩
  · rcases h2 with h2 | ⟨h2e, h2l⟩
    · exact Or.inl (lt_trans h2 h1)
    · exact Or.inl (h2e ▸ h1)
  · rcases h2 with h2 | ⟨h2e, h2l⟩
    · exact Or.inl (h1e ▸ h2)
    · exact Or.inr ⟨h1e.trans h2e, le_trans h2l h1l⟩

def computeControllerGroups (input : GroupInput) :
    List ControllerGroup × SMap Nat :=
  let st := afterPasses input
  let rtm := rootToMembers st.1 input.actors
  let built := buildGroups st.2 input.minGroupSize
    (rtm.1.entries.map (fun e => e.2)) 0 SMap.empty
  (List.insertionSort groupLE built.1, built.2)

/-!  Basic lemmas about the `SMap` model. -/

namespace SMap

theorem get_empty {α : Type} (k : String) : (SMap.empty : SMap α).get k = none := rfl

theorem find?_map_set {α : Type} (l : List (String × α)) (k : String) (v : α)
    (h : l.any (fun e => e.1 == k) = true) :
    (l.map (fun e => if e.1 == k then (k, v) else e)).find? (fun e => e.1 == k)
      = some (k, v) := by
  induction l with
  | nil => simp at h
  | cons e es ih =>
    rw [List.map_cons]
    by_cases hk : (e.1 == k) = true
    · rw [if_pos hk]
      simp [List.find?_cons]
    · rw [if_neg hk]
      have hk' : (e.1 == k) = false := by simpa using hk
      simp only [List.find?_cons, hk']
      apply ih
      rw [List.any_cons, hk', Bool.false_or] at h
      exact h

theorem find?_map_set_ne {α : Type} (l : List (String × α)) (k k' : String) (v : α)
    (h : k' ≠ k) :
    (l.map (fun e => if e.1 == k then (k, v) else e)).find? (fun e => e.1 == k')
      = l.find? (fun e => e.1 == k') := by
  induction l with
  | nil => rfl
  | cons e es ih =>
    rw [List.map_cons]
    by_cases hk : (e.1 == k) = true
    · have hek : e.1 = k := by simpa using hk
      rw [if_pos hk]
      have hf1 : (((k, v) : String × α).1 == k') = false := by
        simp only [beq_eq_false_iff_ne, ne_eq]
        exact fun hh => h hh.symm
      have hf2 : (e.1 == k') = false := by
        simp only [beq_eq_false_iff_ne, ne_eq, hek]
        exact fun hh => h hh.symm
      simp only [List.find?_cons, hf1, hf2]
      exact ih
    · rw [if_neg hk]
      cases hk' : (e.1 == k') with
      | true => simp only [List.find?_cons, hk']
      | false =>
        simp only [List.find?_cons, hk']
        exact ih

theorem hasKey_iff_mem_keys {α : Type} (m : SMap α) (k : String) :
    m.hasKey k = true ↔ k ∈ m.keys := by
  unfold hasKey keys
  rw [List.any_eq_true]
  constructor
  · rintro ⟨e, he, hk⟩
    exact List.mem_map.mpr ⟨e, he, by simpa using hk⟩
  · rintro h
    rcases List.mem_map.mp h with ⟨e, he, hk⟩
    exact ⟨e, he, by simpa using hk⟩

theorem get_set_self {α : Type} (m : SMap α) (k : String) (v : α) :
    (m.set k v).get k = some v := by
  unfold set
  cases hh : m.hasKey k with
  | true =>
    simp only [hh, if_true, get]
    rw [find?_map_set m.entries k v hh]
    rfl
  | false =>
    simp only [hh, Bool.false_eq_true, if_false, get]
    have hnone : m.entries.find? (fun e => e.1 == k) = none := by
      rw [List.find?_eq_none]
      intro e he hk
      have : m.hasKey k = true := List.any_eq_true.mpr ⟨e, he, hk⟩
      rw [hh] at this
      exact Bool.false_ne_true this
    rw [List.find?_append, hnone]
    simp [List.find?_cons]

theorem get_set_ne {α : Type} (m : SMap α) (k k' : String) (v : α) (h : k' ≠ k) :
    (m.set k v).get k' = m.get k' := by
  unfold set
  cases hh : m.hasKey k with
  | true =>
    simp only [hh, if_true, get]
    rw [find?_map_set_ne m.entries k k' v h]
  | false =>
    simp only [hh, Bool.false_eq_true, if_false, get]
    rw [List.find?_append]
    have hkk : (((k, v) : String × α).1 == k') = false := by
      simp only [beq_eq_false_iff_ne, ne_eq]
      intro hh2
      exact h hh2.symm
    cases hfind : m.entries.find? (fun e => e.1 == k') with
    | some e => rfl
    | none => simp [List.find?_cons, hkk]

theorem keys_set_of_has {α : Type} (m : SMap α) (k : String) (v : α)
    (h : m.hasKey k = true) : (m.set k v).keys = m.keys := by
  unfold set
  simp only [h, if_true, keys, List.map_map]
  apply List.map_congr_left
  intro e _
  by_cases hk : (e.1 == k) = true
  · simp only [Function.comp_apply, if_pos hk]
    exact (by simpa using hk : e.1 = k).symm
  · simp only [Function.comp_apply, if_neg hk]

theorem keys_set_of_not_has {α : Type} (m : SMap α) (k : String) (v : α)
    (h : m.hasKey k = false) : (m.set k v).keys = m.keys ++ [k] := by
  unfold set
  simp [h, keys]

theorem entries_set_of_not_has {α : Type} (m : SMap α) (k : String) (v : α)
    (h : m.hasKey k = false) : (m.set k v).entries = m.entries ++ [(k, v)] := by
  unfold set
  simp [h]

theorem entries_length_set_of_has {α : Type} (m : SMap α) (k : String) (v : α)
    (h : m.hasKey k = true) : (m.set k v).entries.length = m.entries.length := by
  unfold set
  simp [h]

theorem nodup_keys_set {α : Type} (m : SMap α) (k : String) (v : α)
    (h : m.keys.Nodup) : (m.set k v).keys.Nodup := by
  cases hh : m.hasKey k with
  | true => rw [keys_set_of_has m k v hh]; exact h
  | false =>
    rw [keys_set_of_not_has m k v hh]
    rw [List.nodup_append]
    refine ⟨h, List.nodup_singleton k, ?_⟩
    intro a ha hb
    have hak : a = k := by simpa using hb
    subst hak
    have : m.hasKey a = true := (hasKey_iff_mem_keys m a).mpr ha
    rw [hh] at this
    exact Bool.false_ne_true this

theorem get_isSome_iff_mem_keys {α : Type} (m : SMap α) (k : String) :
    (m.get k).isSome = true ↔ k ∈ m.keys := by
  rw [← hasKey_iff_mem_keys]
  unfold get hasKey
  cases hfind : m.entries.find? (fun e => e.1 == k) with
  | none =>
    simp only [Option.map_none', Option.isSome_none, Bool.false_eq_true, false_iff]
    rw [List.find?_eq_none] at hfind
    intro hany
    rcases List.any_eq_true.mp hany with ⟨e, he, hk⟩
    exact hfind e he hk
  | some e =>
    simp only [Option.map_some', Option.isSome_some, true_iff]
    have hpa := List.find?_some hfind
    exact List.any_eq_true.mpr ⟨e, List.mem_of_find?_eq_some hfind, hpa⟩

theorem get_none_iff_not_mem_keys {α : Type} (m : SMap α) (k : String) :
    m.get k = none ↔ ¬ k ∈ m.keys := by
  rw [← get_isSome_iff_mem_keys]
  cases m.get k <;> simp

theorem mem_entries_of_get_some {α : Type} (m : SMap α) (k : String) (v : α)
    (h : m.get k = some v) : (k, v) ∈ m.entries := by
  unfold get at h
  cases hfind : m.entries.find? (fun e => e.1 == k) with
  | none => rw [hfind] at h; simp at h
  | some e =>
    rw [hfind] at h
    have he : e ∈ m.entries := List.mem_of_find?_eq_some hfind
    have hk : e.1 = k := by
      have hpa := List.find?_some hfind
      simpa using hpa
    have hv : e.2 = v := by simpa using h
    have : e = (k, v) := Prod.ext hk hv
    rw [← this]
    exact he

theorem find?_of_mem_nodup {α : Type} (l : List (String × α)) (k : String) (v : α)
    (hmem : (k, v) ∈ l) (hnd : (l.map (fun e => e.1)).Nodup) :
    l.find? (fun e => e.1 == k) = some (k, v) := by
  induction l with
  | nil => simp at hmem
  | cons e es ih =>
    rcases List.mem_cons.mp hmem with he | he
    · rw [← he]
      simp [List.find?_cons]
    · have hk : (e.1 == k) = false := by
        rw [List.map_cons, List.nodup_cons] at hnd
        simp only [beq_eq_false_iff_ne, ne_eq]
        intro hek
        exact hnd.1 (hek ▸ List.mem_map.mpr ⟨(k, v), he, rfl⟩)
      simp only [List.find?_cons, hk]
      exact ih he (by rw [List.map_cons, List.nodup_cons] at hnd; exact hnd.2)

theorem get_of_mem_entries_nodup {α : Type} (m : SMap α) (k : String) (v : α)
    (hmem : (k, v) ∈ m.entries) (hnd : m.keys.Nodup) : m.get k = some v := by
  unfold get
  rw [find?_of_mem_nodup m.entries k v hmem (by simpa [keys] using hnd)]
  rfl

end SMap

/-!  Chain/root theory for the union-find parent map.  A node is a root for
the source `find` when its parent entry is missing, itself, or the empty
string (the JS falsy check `if (!p) return x`).  `ChainLen p x r k` says
the followed parent chain from `x` reaches the root `r` in `k` steps —
only non-self, non-empty parent values are followed; `UFInv p` certifies
acyclicity of the followed edges by a strictly decreasing measure. -/

def IsRoot (p : SMap String) (x : String) : Prop :=
  p.get x = none ∨ p.get x = some x ∨ p.get x = some ""

inductive ChainLen (p : SMap String) : String → String → Nat → Prop
  | zero (x : String) : IsRoot p x → ChainLen p x x 0
  | succ (x y r : String) (k : Nat) : p.get x = some y → y ≠ x → y ≠ "" →
      ChainLen p y r k → ChainLen p x r (k + 1)

def RootOf (p : SMap String) (x r : String) : Prop := ∃ k, ChainLen p x r k

def UFInv (p : SMap String) : Prop :=
  ∃ d : String → Nat, ∀ x y, p.get x = some y → y ≠ x → y ≠ "" → d y < d x

theorem ChainLen.isRoot {p : SMap String} {x r : String} {k : Nat}
    (h : ChainLen p x r k) : IsRoot p r := by
  induction h with
  | zero x hx => exact hx
  | succ x y r k hget hyx hy0 hch ih => exact ih

theorem not_isRoot_of_step {p : SMap String} {x y : String}
    (hget : p.get x = some y) (hyx : y ≠ x) (hy0 : y ≠ "") : ¬ IsRoot p x := by
  rintro (h | h | h)
  · rw [hget] at h; exact Option.noConfusion h
  · rw [hget] at h
    exact hyx (Option.some.injEq _ _ ▸ h)
  · rw [hget] at h
    exact hy0 (Option.some.injEq _ _ ▸ h)

theorem chainLen_det {p : SMap String} :
    ∀ {x r r' : String} {k k' : Nat},
      ChainLen p x r k → ChainLen p x r' k' → r = r' ∧ k = k' := by
  intro x r r' k k' h1
  induction h1 generalizing r' k' with
  | zero x hx =>
    intro h2
    cases h2 with
    | zero _ _ => exact ⟨rfl, rfl⟩
    | succ _ y _ k hget hyx hy0 hch => exact absurd hx (not_isRoot_of_step hget hyx hy0)
  | succ x y r k hget hyx hy0 hch ih =>
    intro h2
    cases h2 with
    | zero _ hx => exact absurd hx (not_isRoot_of_step hget hyx hy0)
    | succ _ y' _ k2 hget' hyx' hy0' hch' =>
      have hy : y' = y := by rw [hget] at hget'; exact (Option.some.injEq _ _ ▸ hget').symm
      subst hy
      rcases ih hch' with ⟨hr, hk⟩
      exact ⟨hr, by rw [hk]⟩

theorem rootOf_det {p : SMap String} {x r r' : String}
    (h1 : RootOf p x r) (h2 : RootOf p x r') : r = r' := by
  rcases h1 with ⟨k, h1⟩
  rcases h2 with ⟨k', h2⟩
  exact (chainLen_det h1 h2).1

theorem rootOf_isRoot {p : SMap String} {x r : String} (h : RootOf p x r) :
    IsRoot p r := by
  rcases h with ⟨k, h⟩
  exact h.isRoot

theorem rootOf_self_of_isRoot {p : SMap String} {x : String} (h : IsRoot p x) :
    RootOf p x x := ⟨0, ChainLen.zero x h⟩

theorem rootOf_step {p : SMap String} {x y s : String}
    (hget : p.get x = some y) (hyx : y ≠ x) (hy0 : y ≠ "") :
    RootOf p x s ↔ RootOf p y s := by
  constructor
  · rintro ⟨k, hch⟩
    cases hch with
    | zero _ hx => exact absurd hx (not_isRoot_of_step hget hyx hy0)
    | succ _ y' _ k2 hget' hyx' hy0' hch' =>
      have hy : y' = y := by rw [hget] at hget'; exact (Option.some.injEq _ _ ▸ hget').symm
      subst hy
      exact ⟨k2, hch'⟩
  · rintro ⟨k, hch⟩
    exact ⟨k + 1, ChainLen.succ x y s k hget hyx hy0 hch⟩

theorem rootOf_exists {p : SMap String} (hInv : UFInv p) (x : String) :
    ∃ r, RootOf p x r := by
  rcases hInv with ⟨d, hd⟩
  suffices H : ∀ n x, d x ≤ n → ∃ r, RootOf p x r from H (d x) x le_rfl
  intro n
  induction n with
  | zero =>
    intro x hx
    cases hget : p.get x with
    | none => exact ⟨x, rootOf_self_of_isRoot (Or.inl hget)⟩
    | some y =>
      by_cases hyx : y = x
      · exact ⟨x, rootOf_self_of_isRoot (Or.inr (Or.inl (hyx ▸ hget)))⟩
      · by_cases hy0 : y = ""
        · exact ⟨x, rootOf_self_of_isRoot (Or.inr (Or.inr (hy0 ▸ hget)))⟩
        · have := hd x y hget hyx hy0
          omega
  | succ n ih =>
    intro x hx
    cases hget : p.get x with
    | none => exact ⟨x, rootOf_self_of_isRoot (Or.inl hget)⟩
    | some y =>
      by_cases hyx : y = x
      · exact ⟨x, rootOf_self_of_isRoot (Or.inr (Or.inl (hyx ▸ hget)))⟩
      · by_cases hy0 : y = ""
        · exact ⟨x, rootOf_self_of_isRoot (Or.inr (Or.inr (hy0 ▸ hget)))⟩
        · have hlt := hd x y hget hyx hy0
          rcases ih y (by omega) with ⟨r, hr⟩
          exact ⟨r, (rootOf_step hget hyx hy0).mpr hr⟩

theorem chainLen_d_lt {p : SMap String} {d : String → Nat}
    (hd : ∀ x y, p.get x = some y → y ≠ x → y ≠ "" → d y < d x) :
    ∀ {x r : String} {k : Nat}, ChainLen p x r k → 0 < k → d r < d x := by
  intro x r k h
  induction h with
  | zero x hx => intro h0; omega
  | succ x y r k hget hyx hy0 hch ih =>
    intro _
    have hxy := hd x y hget hyx hy0
    cases k with
    | zero =>
      cases hch with
      | zero _ _ => exact hxy
    | succ k2 => exact lt_trans (ih (Nat.succ_pos k2)) hxy

/-- A chain of positive length ends at a root that is itself a followed
parent value, hence non-empty. -/
theorem chainLen_root_ne {p : SMap String} :
    ∀ {x r : String} {k : Nat}, ChainLen p x r k → 0 < k → r ≠ "" := by
  intro x r k h
  induction h with
  | zero x hx => intro h0; exact absurd h0 (lt_irrefl 0)
  | succ x y r k hget hyx hy0 hch ih =>
    intro _
    cases k with
    | zero =>
      cases hch with
      | zero _ _ => exact hy0
    | succ k2 => exact ih (Nat.succ_pos k2)

theorem rootOf_ne_of_ne {p : SMap String} {x r : String}
    (h : RootOf p x r) (hxr : x ≠ r) : r ≠ "" := by
  rcases h with ⟨k, hch⟩
  cases k with
  | zero =>
    cases hch with
    | zero _ _ => exact absurd rfl hxr
  | succ k2 => exact chainLen_root_ne hch (Nat.succ_pos k2)

theorem chainLen_nodes {p : SMap String} {d : String → Nat}
    (hd : ∀ x y, p.get x = some y → y ≠ x → y ≠ "" → d y < d x) :
    ∀ {x r : String} {k : Nat}, ChainLen p x r k →
      ∃ l : List String, l.length = k ∧ l.Nodup ∧
        (∀ z ∈ l, (p.get z).isSome = true) ∧ (∀ z ∈ l, d z ≤ d x) := by
  intro x r k h
  induction h with
  | zero x hx => exact ⟨[], rfl, List.nodup_nil, by simp, by simp⟩
  | succ x y r k hget hyx hy0 hch ih =>
    rcases ih with ⟨l, hlen, hnd, hsome, hbound⟩
    have hxy := hd x y hget hyx hy0
    refine ⟨x :: l, by simp [hlen], ?_, ?_, ?_⟩
    · rw [List.nodup_cons]
      refine ⟨fun hmem => ?_, hnd⟩
      have := hbound x hmem
      omega
    · intro z hz
      rcases List.mem_cons.mp hz with hz | hz
      · subst hz; rw [hget]; rfl
      · exact hsome z hz
    · intro z hz
      rcases List.mem_cons.mp hz with hz | hz
      · subst hz; exact le_rfl
      · exact le_trans (hbound z hz) (le_of_lt hxy)

theorem chainLen_le_entries {p : SMap String} (hInv : UFInv p) :
    ∀ {x r : String} {k : Nat}, ChainLen p x r k → k ≤ p.entries.length := by
  rcases hInv with ⟨d, hd⟩
  intro x r k h
  rcases chainLen_nodes hd h with ⟨l, hlen, hnd, hsome, _⟩
  have hsub : l ⊆ p.keys := by
    intro z hz
    exact (SMap.get_isSome_iff_mem_keys p z).mp (hsome z hz)
  have := (List.subperm_of_subset hnd hsub).length_le
  have hkl : p.keys.length = p.entries.length := List.length_map _ _
  omega

/-!  Re-pointing a node at its root (the path-compression write) preserves
roots and the acyclicity certificate. -/

theorem rootOf_set_root_forward {p : SMap String} {x r : String}
    (hroot : RootOf p x r) (hxr : x ≠ r) :
    ∀ {z s : String}, RootOf p z s → RootOf (p.set x r) z s := by
  rintro z s ⟨k, hch⟩
  induction hch with
  | zero z hz =>
    refine rootOf_self_of_isRoot ?_
    by_cases hzx : z = x
    · subst hzx
      exact absurd (rootOf_det hroot (rootOf_self_of_isRoot hz)).symm hxr
    · unfold IsRoot
      rw [SMap.get_set_ne p x z r hzx]
      exact hz
  | succ z y s k hget hyz hy0 hch ih =>
    by_cases hzx : z = x
    · subst hzx
      have hsr : s = r := rootOf_det ⟨k + 1, ChainLen.succ z y s k hget hyz hy0 hch⟩ hroot
      subst hsr
      have hs0 : s ≠ "" := rootOf_ne_of_ne hroot hxr
      have hrr : IsRoot p s := rootOf_isRoot hroot
      have hrr' : IsRoot (p.set z s) s := by
        unfold IsRoot
        rw [SMap.get_set_ne p z s s (Ne.symm hxr)]
        exact hrr
      exact ⟨1, ChainLen.succ z s s 0 (SMap.get_set_self p z s) (Ne.symm hxr) hs0
        (ChainLen.zero s hrr')⟩
    · rcases ih with ⟨k2, hch2⟩
      refine ⟨k2 + 1, ChainLen.succ z y s k2 ?_ hyz hy0 hch2⟩
      rw [SMap.get_set_ne p x z r hzx]
      exact hget

theorem rootOf_set_root_iff {p : SMap String} (hInv : UFInv p) {x r : String}
    (hroot : RootOf p x r) (hxr : x ≠ r) :
    ∀ z s, RootOf (p.set x r) z s ↔ RootOf p z s := by
  intro z s
  constructor
  · intro h
    rcases rootOf_exists hInv z with ⟨s0, hs0⟩
    have := rootOf_set_root_forward hroot hxr hs0
    have hss : s = s0 := rootOf_det h this
    rw [hss]
    exact hs0
  · exact rootOf_set_root_forward hroot hxr

theorem ufInv_set_root {p : SMap String} (hInv : UFInv p) {x r : String}
    (hroot : RootOf p x r) (hxr : x ≠ r) : UFInv (p.set x r) := by
  rcases hInv with ⟨d, hd⟩
  refine ⟨d, ?_⟩
  intro z y hget hyz hy0
  by_cases hzx : z = x
  · subst hzx
    rw [SMap.get_set_self] at hget
    have hyr : y = r := (Option.some.injEq _ _ ▸ hget).symm
    subst hyr
    rcases hroot with ⟨k, hch⟩
    have hk : 0 < k := by
      cases hch with
      | zero _ _ => exact absurd rfl hxr
      | succ _ _ _ k2 _ _ _ _ => omega
    exact chainLen_d_lt hd hch hk
  · rw [SMap.get_set_ne p x z r hzx] at hget
    exact hd z y hget hyz hy0

/-!  The fuel-indexed `findAux` computes the root and only re-points
visited nodes at it: roots, keys and the invariant are preserved. -/

theorem findAux_spec {p : SMap String} (hInv : UFInv p) :
    ∀ {k : Nat} {x r : String} {fuel : Nat}, ChainLen p x r k → k < fuel →
      (findAux fuel p x).1 = r ∧
      SMap.keys (findAux fuel p x).2 = SMap.keys p ∧
      (∀ z s, RootOf (findAux fuel p x).2 z s ↔ RootOf p z s) ∧
      UFInv (findAux fuel p x).2 := by
  intro k x r fuel hch
  induction hch generalizing fuel with
  | zero x hx =>
    intro hfuel
    cases fuel with
    | zero => omega
    | succ f =>
      have hfa : findAux (f + 1) p x = (x, p) := by
        rcases hx with hx | hx | hx
        · simp only [findAux, hx]
        · simp [findAux, hx]
        · simp [findAux, hx]
      rw [hfa]
      exact ⟨rfl, rfl, fun z s => Iff.rfl, hInv⟩
  | succ x y r k hget hyx hy0 hch ih =>
    intro hfuel
    cases fuel with
    | zero => omega
    | succ f =>
      have hkf : k < f := by omega
      rcases ih hkf with ⟨ih1, ih2, ih3, ih4⟩
      have hxr : x ≠ r := by
        intro hxr
        subst hxr
        exact not_isRoot_of_step hget hyx hy0 hch.isRoot
      have hrootx : RootOf (findAux f p y).2 x r :=
        (ih3 x r).mpr ((rootOf_step hget hyx hy0).mpr ⟨k, hch⟩)
      have hxkeys : x ∈ SMap.keys (findAux f p y).2 := by
        rw [ih2]
        exact (SMap.get_isSome_iff_mem_keys p x).mp (by rw [hget]; rfl)
      have hxhas : (findAux f p y).2.hasKey x = true :=
        (SMap.hasKey_iff_mem_keys _ x).mpr hxkeys
      simp only [findAux, hget, if_neg hy0, if_neg hyx]
      rw [ih1]
      refine ⟨rfl, ?_, ?_, ?_⟩
      · rw [SMap.keys_set_of_has _ x r hxhas]
        exact ih2
      · intro z s
        rw [rootOf_set_root_iff ih4 hrootx hxr z s]
        exact ih3 z s
      · exact ufInv_set_root ih4 hrootx hxr

theorem chainLen_lt_find_fuel {p : SMap String} (hInv : UFInv p)
    {x r : String} {k : Nat} (hch : ChainLen p x r k) :
    k < p.entries.length + 1 :=
  Nat.lt_succ_of_le (chainLen_le_entries hInv hch)

theorem find_spec (uf : UnionFind) (hInv : UFInv uf.parent) (x : String) :
    RootOf uf.parent x (uf.find x).1 ∧
    (∀ z s, RootOf (uf.find x).2.parent z s ↔ RootOf uf.parent z s) ∧
    UFInv (uf.find x).2.parent ∧
    SMap.keys (uf.find x).2.parent = SMap.keys uf.parent ∧
    (uf.find x).2.size = uf.size := by
  rcases rootOf_exists hInv x with ⟨r, k, hch⟩
  have hfuel := chainLen_lt_find_fuel hInv hch
  rcases findAux_spec hInv hch hfuel with ⟨h1, h2, h3, h4⟩
  unfold UnionFind.find
  exact ⟨h1 ▸ ⟨k, hch⟩, h3, h4, h2, rfl⟩

/-- The falsy check guards every recursive call, so `findAux` never
returns the empty string for a non-empty argument, on any map. -/
theorem findAux_fst_ne :
    ∀ (fuel : Nat) (p : SMap String) (x : String), x ≠ "" →
      (findAux fuel p x).1 ≠ "" := by
  intro fuel
  induction fuel with
  | zero => intro p x hx; exact hx
  | succ f ih =>
    intro p x hx
    cases hget : p.get x with
    | none =>
      have hfa : findAux (f + 1) p x = (x, p) := by simp only [findAux, hget]
      rw [hfa]; exact hx
    | some px =>
      by_cases h0 : px = ""
      · have hfa : findAux (f + 1) p x = (x, p) := by
          simp only [findAux, hget, if_pos h0]
        rw [hfa]; exact hx
      · by_cases hpx : px = x
        · have hfa : findAux (f + 1) p x = (x, p) := by
            simp only [findAux, hget, if_neg h0, if_pos hpx]
          rw [hfa]; exact hx
        · have hfa : findAux (f + 1) p x =
              ((findAux f p px).1, (findAux f p px).2.set x (findAux f p px).1) := by
            simp only [findAux, hget, if_neg h0, if_neg hpx]
          rw [hfa]
          exact ih p px h0

theorem find_fst_ne (uf : UnionFind) (x : String) (hx : x ≠ "") :
    (uf.find x).1 ≠ "" :=
  findAux_fst_ne (uf.parent.entries.length + 1) uf.parent x hx

/-- `find` on a string without a parent entry returns the string and the
unchanged structure. -/
theorem find_of_get_none (uf : UnionFind) (x : String)
    (h : uf.parent.get x = none) : uf.find x = (x, uf) := by
  have hfa : findAux (uf.parent.entries.length + 1) uf.parent x
      = (x, uf.parent) := by
    simp only [findAux, h]
  unfold UnionFind.find
  rw [hfa]

/-!  Support of the parent map: every key and value stays inside the set
of strings the unions ever mention.  This needs no acyclicity and holds
for every input. -/

def SuppIn (p : SMap String) (S : String → Prop) : Prop :=
  ∀ k v, p.get k = some v → S k ∧ S v

theorem findAux_fst_supp {S : String → Prop} :
    ∀ (fuel : Nat) (p : SMap String), SuppIn p S →
      ∀ x, (findAux fuel p x).1 = x ∨ S (findAux fuel p x).1 := by
  intro fuel
  induction fuel with
  | zero => intro p _ x; exact Or.inl rfl
  | succ f ih =>
    intro p hp x
    cases hget : p.get x with
    | none =>
      have hfa : findAux (f + 1) p x = (x, p) := by simp only [findAux, hget]
      rw [hfa]; exact Or.inl rfl
    | some px =>
      by_cases h0 : px = ""
      · have hfa : findAux (f + 1) p x = (x, p) := by
          simp only [findAux, hget, if_pos h0]
        rw [hfa]; exact Or.inl rfl
      · by_cases hpx : px = x
        · have hfa : findAux (f + 1) p x = (x, p) := by
            simp only [findAux, hget, if_neg h0, if_pos hpx]
          rw [hfa]; exact Or.inl rfl
        · have hfa : findAux (f + 1) p x =
              ((findAux f p px).1, (findAux f p px).2.set x (findAux f p px).1) := by
            simp only [findAux, hget, if_neg h0, if_neg hpx]
          rw [hfa]
          rcases ih p hp px with h | h
          · rw [h]
            exact Or.inr (hp x px hget).2
          · exact Or.inr h

theorem suppIn_set {p : SMap String} {S : String → Prop} (hp : SuppIn p S)
    {c q : String} (hc : S c) (hq : S q) : SuppIn (p.set c q) S := by
  intro k v hkv
  by_cases hkc : k = c
  · subst hkc
    rw [SMap.get_set_self] at hkv
    have hv : v = q := (Option.some.injEq _ _ ▸ hkv).symm
    exact ⟨hc, hv ▸ hq⟩
  · rw [SMap.get_set_ne p c k q hkc] at hkv
    exact hp k v hkv

theorem findAux_snd_supp {S : String → Prop} :
    ∀ (fuel : Nat) (p : SMap String), SuppIn p S →
      ∀ x, SuppIn (findAux fuel p x).2 S := by
  intro fuel
  induction fuel with
  | zero => intro p hp x; exact hp
  | succ f ih =>
    intro p hp x
    cases hget : p.get x with
    | none =>
      have hfa : findAux (f + 1) p x = (x, p) := by simp only [findAux, hget]
      rw [hfa]; exact hp
    | some px =>
      by_cases h0 : px = ""
      · have hfa : findAux (f + 1) p x = (x, p) := by
          simp only [findAux, hget, if_pos h0]
        rw [hfa]; exact hp
      · by_cases hpx : px = x
        · have hfa : findAux (f + 1) p x = (x, p) := by
            simp only [findAux, hget, if_neg h0, if_pos hpx]
          rw [hfa]; exact hp
        · have hfa : findAux (f + 1) p x =
              ((findAux f p px).1, (findAux f p px).2.set x (findAux f p px).1) := by
            simp only [findAux, hget, if_neg h0, if_neg hpx]
          rw [hfa]
          have hSx : S x := (hp x px hget).1
          have hSr : S (findAux f p px).1 := by
            rcases findAux_fst_supp f p hp px with h | h
            · rw [h]
              exact (hp x px hget).2
            · exact h
          exact suppIn_set (ih p hp px) hSx hSr

theorem find_supp {S : String → Prop} (uf : UnionFind) (h : SuppIn uf.parent S)
    (x : String) :
    ((uf.find x).1 = x ∨ S (uf.find x).1) ∧ SuppIn (uf.find x).2.parent S :=
  ⟨findAux_fst_supp (uf.parent.entries.length + 1) uf.parent h x,
   findAux_snd_supp (uf.parent.entries.length + 1) uf.parent h x⟩

/-!  The specification-side relation: connectivity by a finite chain of
performed unions. -/

inductive Conn (pairs : List (String × String)) : String → String → Prop
  | base (a b : String) : (a, b) ∈ pairs → Conn pairs a b
  | refl (a : String) : Conn pairs a a
  | symm {a b : String} : Conn pairs a b → Conn pairs b a
  | trans {a b c : String} : Conn pairs a b → Conn pairs b c → Conn pairs a c

theorem conn_mono {pairs pairs' : List (String × String)}
    (hsub : ∀ q ∈ pairs, q ∈ pairs') {x y : String} (h : Conn pairs x y) :
    Conn pairs' x y := by
  induction h with
  | base a b hab => exact Conn.base a b (hsub _ hab)
  | refl a => exact Conn.refl a
  | symm h ih => exact ih.symm
  | trans h1 h2 ih1 ih2 => exact ih1.trans ih2

theorem conn_nil_iff (x y : String) : Conn [] x y ↔ x = y := by
  constructor
  · intro h
    induction h with
    | base a b hab => simp at hab
    | refl a => rfl
    | symm h ih => exact ih.symm
    | trans h1 h2 ih1 ih2 => exact ih1.trans ih2
  · rintro rfl
    exact Conn.refl x

theorem conn_append_single (pairs : List (String × String)) (a b x y : String) :
    Conn (pairs ++ [(a, b)]) x y ↔
      Conn pairs x y ∨ (Conn pairs x a ∧ Conn pairs b y) ∨
        (Conn pairs x b ∧ Conn pairs a y) := by
  constructor
  · intro h
    induction h with
    | base u v huv =>
      rcases List.mem_append.mp huv with huv | huv
      · exact Or.inl (Conn.base u v huv)
      · have : (u, v) = (a, b) := by simpa using huv
        have hu : u = a := congrArg Prod.fst this
        have hv : v = b := congrArg Prod.snd this
        subst hu; subst hv
        exact Or.inr (Or.inl ⟨Conn.refl u, Conn.refl v⟩)
    | refl u => exact Or.inl (Conn.refl u)
    | symm h ih =>
      rcases ih with ih | ⟨h1, h2⟩ | ⟨h1, h2⟩
      · exact Or.inl ih.symm
      · exact Or.inr (Or.inr ⟨h2.symm, h1.symm⟩)
      · exact Or.inr (Or.inl ⟨h2.symm, h1.symm⟩)
    | trans h1 h2 ih1 ih2 =>
      rcases ih1 with ih1 | ⟨c1, c2⟩ | ⟨c1, c2⟩ <;>
        rcases ih2 with ih2 | ⟨d1, d2⟩ | ⟨d1, d2⟩
      · exact Or.inl (ih1.trans ih2)
      · exact Or.inr (Or.inl ⟨ih1.trans d1, d2⟩)
      · exact Or.inr (Or.inr ⟨ih1.trans d1, d2⟩)
      · exact Or.inr (Or.inl ⟨c1, c2.trans ih2⟩)
      · exact Or.inl ((c1.trans d1.symm).trans (c2.symm.trans d2).symm.symm)
      · exact Or.inl (c1.trans d2)
      · exact Or.inr (Or.inr ⟨c1, c2.trans ih2⟩)
      · exact Or.inl (c1.trans d2)
      · exact Or.inl ((c1.trans d1.symm).trans (c2.symm.trans d2).symm.symm)
  · intro h
    have hconn : ∀ u v, Conn pairs u v → Conn (pairs ++ [(a, b)]) u v :=
      fun u v => conn_mono (fun q hq => List.mem_append.mpr (Or.inl hq))
    have hab : Conn (pairs ++ [(a, b)]) a b :=
      Conn.base a b (List.mem_append.mpr (Or.inr (by simp)))
    rcases h with h | ⟨h1, h2⟩ | ⟨h1, h2⟩
    · exact hconn x y h
    · exact ((hconn x a h1).trans hab).trans (hconn b y h2)
    · exact ((hconn x b h1).trans hab.symm).trans (hconn a y h2)

theorem conn_extend_absorb {pairs : List (String × String)} {a b : String}
    (hab : Conn pairs a b) (x y : String) :
    Conn (pairs ++ [(a, b)]) x y ↔ Conn pairs x y := by
  rw [conn_append_single]
  constructor
  · rintro (h | ⟨h1, h2⟩ | ⟨h1, h2⟩)
    · exact h
    · exact (h1.trans hab).trans h2
    · exact (h1.trans hab.symm).trans h2
  · exact Or.inl

theorem conn_pair_comm (pairs : List (String × String)) (a b x y : String) :
    Conn (pairs ++ [(b, a)]) x y ↔ Conn (pairs ++ [(a, b)]) x y := by
  rw [conn_append_single, conn_append_single]
  constructor
  · rintro (h | ⟨h1, h2⟩ | ⟨h1, h2⟩)
    · exact Or.inl h
    · exact Or.inr (Or.inr ⟨h1, h2⟩)
    · exact Or.inr (Or.inl ⟨h1, h2⟩)
  · rintro (h | ⟨h1, h2⟩ | ⟨h1, h2⟩)
    · exact Or.inl h
    · exact Or.inr (Or.inr ⟨h1, h2⟩)
    · exact Or.inr (Or.inl ⟨h1, h2⟩)

theorem conn_same_mem {pairs pairs' : List (String × String)}
    (h : ∀ q, q ∈ pairs ↔ q ∈ pairs') (x y : String) :
    Conn pairs x y ↔ Conn pairs' x y :=
  ⟨conn_mono (fun q hq => (h q).mp hq), conn_mono (fun q hq => (h q).mpr hq)⟩

/-- A connected pair of distinct nodes has both endpoints mentioned by some
performed union. -/
theorem conn_touch {pairs : List (String × String)} {x y : String}
    (h : Conn pairs x y) :
    x = y ∨ ((∃ q ∈ pairs, x = q.1 ∨ x = q.2) ∧ (∃ q ∈ pairs, y = q.1 ∨ y = q.2)) := by
  induction h with
  | base a b hab => exact Or.inr ⟨⟨(a, b), hab, Or.inl rfl⟩, ⟨(a, b), hab, Or.inr rfl⟩⟩
  | refl a => exact Or.inl rfl
  | symm h ih =>
    rcases ih with ih | ⟨h1, h2⟩
    · exact Or.inl ih.symm
    · exact Or.inr ⟨h2, h1⟩
  | trans h1 h2 ih1 ih2 =>
    rcases ih1 with ih1 | ⟨t1, t2⟩
    · rw [ih1]; exact ih2
    · rcases ih2 with ih2 | ⟨u1, u2⟩
      · exact Or.inr ⟨t1, ih2 ▸ t2⟩
      · exact Or.inr ⟨t1, u2⟩

/-!  Same-root relation and the bridge from the disjoint-set state. -/

def SameRoot (p : SMap String) (a b : String) : Prop :=
  ∃ r, RootOf p a r ∧ RootOf p b r

theorem sameRoot_refl {p : SMap String} (hInv : UFInv p) (x : String) :
    SameRoot p x x := by
  rcases rootOf_exists hInv x with ⟨r, hr⟩
  exact ⟨r, hr, hr⟩

theorem sameRoot_symm {p : SMap String} {x y : String} (h : SameRoot p x y) :
    SameRoot p y x := by
  rcases h with ⟨r, h1, h2⟩
  exact ⟨r, h2, h1⟩

theorem sameRoot_trans {p : SMap String} {x y z : String}
    (h1 : SameRoot p x y) (h2 : SameRoot p y z) : SameRoot p x z := by
  rcases h1 with ⟨r, ha, hb⟩
  rcases h2 with ⟨r', hb', hc⟩
  rw [rootOf_det hb hb'] at ha
  exact ⟨r', ha, hc⟩

/-!  Attaching one root under another: root characterization, invariant
preservation, and the effect on the same-root relation. -/

theorem attach_forward_c (p : SMap String) (c q : String)
    (hcroot : IsRoot p c) (hqroot : IsRoot p q) (hne : c ≠ q) (hq0 : q ≠ "") :
    ∀ {k : Nat} {z : String}, ChainLen p z c k → RootOf (p.set c q) z q := by
  intro k
  induction k using Nat.strong_induction_on with
  | _ k ih =>
    intro z hch
    cases hch with
    | zero _ hz =>
      have hq' : IsRoot (p.set c q) q := by
        unfold IsRoot
        rw [SMap.get_set_ne p c q q (Ne.symm hne)]
        exact hqroot
      exact ⟨1, ChainLen.succ c q q 0 (SMap.get_set_self p c q) (Ne.symm hne) hq0
        (ChainLen.zero q hq')⟩
    | succ _ y _ k2 hget hyz hy0 hch2 =>
      have hzc : z ≠ c := by
        intro hzc
        subst hzc
        exact not_isRoot_of_step hget hyz hy0 hcroot
      rcases ih k2 (by omega) hch2 with ⟨k3, hch3⟩
      refine ⟨k3 + 1, ChainLen.succ z y q k3 ?_ hyz hy0 hch3⟩
      rw [SMap.get_set_ne p c z q hzc]
      exact hget

theorem attach_forward_other (p : SMap String) (c q : String)
    (hcroot : IsRoot p c) :
    ∀ {k : Nat} {z s : String}, ChainLen p z s k → s ≠ c →
      RootOf (p.set c q) z s := by
  intro k
  induction k using Nat.strong_induction_on with
  | _ k ih =>
    intro z s hch hsc
    cases hch with
    | zero _ hz =>
      refine rootOf_self_of_isRoot ?_
      unfold IsRoot
      rw [SMap.get_set_ne p c z q hsc]
      exact hz
    | succ _ y _ k2 hget hyz hy0 hch2 =>
      have hzc : z ≠ c := by
        intro hzc
        subst hzc
        exact not_isRoot_of_step hget hyz hy0 hcroot
      rcases ih k2 (by omega) hch2 hsc with ⟨k3, hch3⟩
      refine ⟨k3 + 1, ChainLen.succ z y s k3 ?_ hyz hy0 hch3⟩
      rw [SMap.get_set_ne p c z q hzc]
      exact hget

theorem attach_root_char {p : SMap String} (hInv : UFInv p) {c q : String}
    (hcroot : IsRoot p c) (hqroot : IsRoot p q) (hne : c ≠ q) (hq0 : q ≠ "") :
    ∀ z s, RootOf (p.set c q) z s ↔
      ((RootOf p z c ∧ s = q) ∨ (RootOf p z s ∧ s ≠ c)) := by
  intro z s
  constructor
  · intro h
    rcases rootOf_exists hInv z with ⟨s0, hs0⟩
    by_cases hs0c : s0 = c
    · rw [hs0c] at hs0
      rcases hs0 with ⟨k, hch⟩
      have := attach_forward_c p c q hcroot hqroot hne hq0 hch
      have hsq : s = q := rootOf_det h this
      exact Or.inl ⟨⟨k, hch⟩, hsq⟩
    · rcases hs0 with ⟨k, hch⟩
      have := attach_forward_other p c q hcroot hch hs0c
      have hss : s = s0 := rootOf_det h this
      rw [hss]
      exact Or.inr ⟨⟨k, hch⟩, hs0c⟩
  · rintro (⟨⟨k, hch⟩, hsq⟩ | ⟨⟨k, hch⟩, hsc⟩)
    · rw [hsq]
      exact attach_forward_c p c q hcroot hqroot hne hq0 hch
    · exact attach_forward_other p c q hcroot hch hsc

theorem attach_ufInv {p : SMap String} (hInv : UFInv p) {c q : String}
    (hcroot : IsRoot p c) (hqroot : IsRoot p q) (hne : c ≠ q) :
    UFInv (p.set c q) := by
  classical
  rcases hInv with ⟨d, hd⟩
  refine ⟨fun z => if RootOf p z c then d z + d q + 1 else d z, ?_⟩
  intro z y hget hyz hy0
  show (if RootOf p y c then d y + d q + 1 else d y) <
    (if RootOf p z c then d z + d q + 1 else d z)
  by_cases hzc : z = c
  · rw [hzc] at hget
    rw [SMap.get_set_self] at hget
    have hyq : y = q := (Option.some.injEq _ _ ▸ hget).symm
    have hgood : RootOf p z c := by
      rw [hzc]; exact rootOf_self_of_isRoot hcroot
    have hbad : ¬ RootOf p y c := by
      intro hcon
      rw [hyq] at hcon
      exact hne (rootOf_det (rootOf_self_of_isRoot hqroot) hcon).symm
    rw [if_pos hgood, if_neg hbad, hyq, hzc]
    omega
  · rw [SMap.get_set_ne p c z q hzc] at hget
    have hdzy := hd z y hget hyz hy0
    have hiff : RootOf p z c ↔ RootOf p y c := rootOf_step hget hyz hy0
    by_cases hroot : RootOf p z c
    · rw [if_pos hroot, if_pos (hiff.mp hroot)]
      omega
    · rw [if_neg hroot, if_neg (fun hcon => hroot (hiff.mpr hcon))]
      exact hdzy

theorem attach_sameRoot {p : SMap String} (hInv : UFInv p) {c q : String}
    (hcroot : IsRoot p c) (hqroot : IsRoot p q) (hne : c ≠ q) (hq0 : q ≠ "") :
    ∀ x y, SameRoot (p.set c q) x y ↔
      (SameRoot p x y ∨ (SameRoot p x c ∧ SameRoot p y q) ∨
        (SameRoot p x q ∧ SameRoot p y c)) := by
  intro x y
  rcases rootOf_exists hInv x with ⟨rx, hrx⟩
  rcases rootOf_exists hInv y with ⟨ry, hry⟩
  have hrootc : RootOf p c c := rootOf_self_of_isRoot hcroot
  have hrootq : RootOf p q q := rootOf_self_of_isRoot hqroot
  have hx' : RootOf (p.set c q) x (if rx = c then q else rx) := by
    rw [attach_root_char hInv hcroot hqroot hne hq0]
    by_cases h : rx = c
    · rw [if_pos h]
      exact Or.inl ⟨h ▸ hrx, rfl⟩
    · rw [if_neg h]
      exact Or.inr ⟨hrx, h⟩
  have hy' : RootOf (p.set c q) y (if ry = c then q else ry) := by
    rw [attach_root_char hInv hcroot hqroot hne hq0]
    by_cases h : ry = c
    · rw [if_pos h]
      exact Or.inl ⟨h ▸ hry, rfl⟩
    · rw [if_neg h]
      exact Or.inr ⟨hry, h⟩
  constructor
  · rintro ⟨s, hxs, hys⟩
    have hex : s = (if rx = c then q else rx) := rootOf_det hxs hx'
    have hey : s = (if ry = c then q else ry) := rootOf_det hys hy'
    by_cases hxc : rx = c <;> by_cases hyc : ry = c
    · exact Or.inl ⟨c, hxc ▸ hrx, hyc ▸ hry⟩
    · rw [if_pos hxc] at hex
      rw [if_neg hyc] at hey
      have hryq : ry = q := by rw [← hex, hey]
      exact Or.inr (Or.inl ⟨⟨c, hxc ▸ hrx, hrootc⟩, ⟨q, hryq ▸ hry, hrootq⟩⟩)
    · rw [if_neg hxc] at hex
      rw [if_pos hyc] at hey
      have hrxq : rx = q := by rw [← hex, hey]
      exact Or.inr (Or.inr ⟨⟨q, hrxq ▸ hrx, hrootq⟩, ⟨c, hyc ▸ hry, hrootc⟩⟩)
    · rw [if_neg hxc] at hex
      rw [if_neg hyc] at hey
      have : rx = ry := by rw [← hex, hey]
      exact Or.inl ⟨rx, hrx, this ▸ hry⟩
  · intro h
    refine ⟨if rx = c then q else rx, hx', ?_⟩
    have key : (if ry = c then q else ry) = (if rx = c then q else rx) → RootOf (p.set c q) y (if rx = c then q else rx) := fun he => he ▸ hy'
    rcases h with ⟨s, hxs, hys⟩ | ⟨⟨s1, hxs1, hcs1⟩, ⟨s2, hys2, hqs2⟩⟩ |
      ⟨⟨s1, hxs1, hqs1⟩, ⟨s2, hys2, hcs2⟩⟩
    · apply key
      have h1 : rx = s := rootOf_det hrx hxs
      have h2 : ry = s := rootOf_det hry hys
      rw [h1, h2]
    · apply key
      have h1 : rx = s1 := rootOf_det hrx hxs1
      have h1c : s1 = c := (rootOf_det hcs1 hrootc)
      have h2 : ry = s2 := rootOf_det hry hys2
      have h2q : s2 = q := (rootOf_det hqs2 hrootq)
      rw [h1, h1c, h2, h2q]
      rw [if_pos rfl, if_neg (fun hqc => hne hqc.symm)]
    · apply key
      have h1 : rx = s1 := rootOf_det hrx hxs1
      have h1q : s1 = q := (rootOf_det hqs1 hrootq)
      have h2 : ry = s2 := rootOf_det hry hys2
      have h2c : s2 = c := (rootOf_det hcs2 hrootc)
      rw [h1, h1q, h2, h2c]
      rw [if_pos rfl, if_neg (fun hqc => hne hqc.symm)]

/-!  The running invariant: the same-root relation of the forest is exactly
connectivity by the unions performed so far. -/

def Good (uf : UnionFind) (pairs : List (String × String)) : Prop :=
  UFInv uf.parent ∧ ∀ x y, SameRoot uf.parent x y ↔ Conn pairs x y

theorem sameRoot_congr {p p' : SMap String}
    (h : ∀ z s, RootOf p' z s ↔ RootOf p z s) (x y : String) :
    SameRoot p' x y ↔ SameRoot p x y := by
  unfold SameRoot
  exact exists_congr (fun r => and_congr (h x r) (h y r))

theorem attach_good (p : SMap String) (pairs : List (String × String))
    (a b c q : String) (hInv : UFInv p)
    (hiff : ∀ x y, SameRoot p x y ↔ Conn pairs x y)
    (hac : RootOf p a c) (hbq : RootOf p b q) (hne : c ≠ q) (hq0 : q ≠ "") :
    UFInv (p.set c q) ∧
      (∀ x y, SameRoot (p.set c q) x y ↔ Conn (pairs ++ [(a, b)]) x y) := by
  have hcroot := rootOf_isRoot hac
  have hqroot := rootOf_isRoot hbq
  refine ⟨attach_ufInv hInv hcroot hqroot hne, ?_⟩
  intro x y
  rw [attach_sameRoot hInv hcroot hqroot hne hq0 x y, conn_append_single]
  have hca : SameRoot p a c := ⟨c, hac, rootOf_self_of_isRoot hcroot⟩
  have hqb : SameRoot p b q := ⟨q, hbq, rootOf_self_of_isRoot hqroot⟩
  constructor
  · rintro (h | ⟨h1, h2⟩ | ⟨h1, h2⟩)
    · exact Or.inl ((hiff x y).mp h)
    · exact Or.inr (Or.inl ⟨(hiff x a).mp (sameRoot_trans h1 (sameRoot_symm hca)),
        (hiff b y).mp (sameRoot_trans hqb (sameRoot_symm h2))⟩)
    · exact Or.inr (Or.inr ⟨(hiff x b).mp (sameRoot_trans h1 (sameRoot_symm hqb)),
        (hiff a y).mp (sameRoot_trans hca (sameRoot_symm h2))⟩)
  · rintro (h | ⟨h1, h2⟩ | ⟨h1, h2⟩)
    · exact Or.inl ((hiff x y).mpr h)
    · exact Or.inr (Or.inl ⟨sameRoot_trans ((hiff x a).mpr h1) hca,
        sameRoot_trans (sameRoot_symm ((hiff b y).mpr h2)) hqb⟩)
    · exact Or.inr (Or.inr ⟨sameRoot_trans ((hiff x b).mpr h1) hqb,
        sameRoot_trans (sameRoot_symm ((hiff a y).mpr h2)) hca⟩)

theorem union_good (uf : UnionFind) (pairs : List (String × String))
    (hGood : Good uf pairs) (a b : String) (ha : a ≠ "") (hb : b ≠ "") :
    Good (uf.union a b) (pairs ++ [(a, b)]) := by
  rcases hGood with ⟨hInv, hiff⟩
  have hra0 : (uf.find a).1 ≠ "" := find_fst_ne uf a ha
  have hrb0 : ((uf.find a).2.find b).1 ≠ "" := find_fst_ne (uf.find a).2 b hb
  obtain ⟨h1a, h2a, h3a, h4a, h5a⟩ := find_spec uf hInv a
  obtain ⟨h1b, h2b, h3b, h4b, h5b⟩ := find_spec (uf.find a).2 h3a b
  have hiff2 : ∀ x y, SameRoot ((uf.find a).2.find b).2.parent x y ↔ Conn pairs x y := by
    intro x y
    rw [sameRoot_congr h2b, sameRoot_congr h2a]
    exact hiff x y
  have hra : RootOf ((uf.find a).2.find b).2.parent a (uf.find a).1 :=
    (h2b _ _).mpr ((h2a _ _).mpr h1a)
  have hrb : RootOf ((uf.find a).2.find b).2.parent b ((uf.find a).2.find b).1 :=
    (h2b _ _).mpr h1b
  show Good
    (if (uf.find a).1 = ((uf.find a).2.find b).1 then ((uf.find a).2.find b).2
     else
       if orOne (((uf.find a).2.find b).2.size.get (uf.find a).1) <
           orOne (((uf.find a).2.find b).2.size.get ((uf.find a).2.find b).1) then
         ⟨((uf.find a).2.find b).2.parent.set (uf.find a).1 ((uf.find a).2.find b).1,
          ((uf.find a).2.find b).2.size.set ((uf.find a).2.find b).1
            (orOne (((uf.find a).2.find b).2.size.get (uf.find a).1) +
             orOne (((uf.find a).2.find b).2.size.get ((uf.find a).2.find b).1))⟩
       else
         ⟨((uf.find a).2.find b).2.parent.set ((uf.find a).2.find b).1 (uf.find a).1,
          ((uf.find a).2.find b).2.size.set (uf.find a).1
            (orOne (((uf.find a).2.find b).2.size.get (uf.find a).1) +
             orOne (((uf.find a).2.find b).2.size.get ((uf.find a).2.find b).1))⟩)
    (pairs ++ [(a, b)])
  by_cases hrr : (uf.find a).1 = ((uf.find a).2.find b).1
  · rw [if_pos hrr]
    refine ⟨h3b, ?_⟩
    intro x y
    have hconnab : Conn pairs a b :=
      (hiff2 a b).mp ⟨(uf.find a).1, hra, hrr ▸ hrb⟩
    rw [hiff2 x y]
    exact (conn_extend_absorb hconnab x y).symm
  · rw [if_neg hrr]
    by_cases hsz : orOne (((uf.find a).2.find b).2.size.get (uf.find a).1) <
        orOne (((uf.find a).2.find b).2.size.get ((uf.find a).2.find b).1)
    · rw [if_pos hsz]
      exact attach_good _ pairs a b _ _ h3b hiff2 hra hrb hrr hrb0
    · rw [if_neg hsz]
      have h := attach_good _ pairs b a _ _ h3b hiff2 hrb hra (fun hc => hrr hc.symm) hra0
      refine ⟨h.1, ?_⟩
      intro x y
      rw [h.2 x y]
      exact conn_pair_comm pairs a b x y

/-- `union` preserves the acyclicity certificate for arbitrary endpoints,
empty strings included: attaching a root under `""` creates no followed
edge. -/
theorem union_ufInv (uf : UnionFind) (hInv : UFInv uf.parent) (a b : String) :
    UFInv (uf.union a b).parent := by
  obtain ⟨h1a, h2a, h3a, h4a, h5a⟩ := find_spec uf hInv a
  obtain ⟨h1b, h2b, h3b, h4b, h5b⟩ := find_spec (uf.find a).2 h3a b
  have hra : RootOf ((uf.find a).2.find b).2.parent a (uf.find a).1 :=
    (h2b _ _).mpr ((h2a _ _).mpr h1a)
  have hrb : RootOf ((uf.find a).2.find b).2.parent b ((uf.find a).2.find b).1 :=
    (h2b _ _).mpr h1b
  show UFInv
    (if (uf.find a).1 = ((uf.find a).2.find b).1 then ((uf.find a).2.find b).2
     else
       if orOne (((uf.find a).2.find b).2.size.get (uf.find a).1) <
           orOne (((uf.find a).2.find b).2.size.get ((uf.find a).2.find b).1) then
         ⟨((uf.find a).2.find b).2.parent.set (uf.find a).1 ((uf.find a).2.find b).1,
          ((uf.find a).2.find b).2.size.set ((uf.find a).2.find b).1
            (orOne (((uf.find a).2.find b).2.size.get (uf.find a).1) +
             orOne (((uf.find a).2.find b).2.size.get ((uf.find a).2.find b).1))⟩
       else
         ⟨((uf.find a).2.find b).2.parent.set ((uf.find a).2.find b).1 (uf.find a).1,
          ((uf.find a).2.find b).2.size.set (uf.find a).1
            (orOne (((uf.find a).2.find b).2.size.get (uf.find a).1) +
             orOne (((uf.find a).2.find b).2.size.get ((uf.find a).2.find b).1))⟩).parent
  by_cases hrr : (uf.find a).1 = ((uf.find a).2.find b).1
  · rw [if_pos hrr]
    exact h3b
  · rw [if_neg hrr]
    by_cases hsz : orOne (((uf.find a).2.find b).2.size.get (uf.find a).1) <
        orOne (((uf.find a).2.find b).2.size.get ((uf.find a).2.find b).1)
    · rw [if_pos hsz]
      exact attach_ufInv h3b (rootOf_isRoot hra) (rootOf_isRoot hrb) hrr
    · rw [if_neg hsz]
      exact attach_ufInv h3b (rootOf_isRoot hrb) (rootOf_isRoot hra)
        (fun hc => hrr hc.symm)

/-- `union` keeps the parent map supported on `S` when both endpoints are
in `S`. -/
theorem union_supp {S : String → Prop} (uf : UnionFind) (h : SuppIn uf.parent S)
    (a b : String) (ha : S a) (hb : S b) : SuppIn (uf.union a b).parent S := by
  obtain ⟨hfa, hpa⟩ := find_supp uf h a
  obtain ⟨hfb, hpb⟩ := find_supp (uf.find a).2 hpa b
  have hSra : S (uf.find a).1 := by
    rcases hfa with h' | h'
    · rw [h']; exact ha
    · exact h'
  have hSrb : S ((uf.find a).2.find b).1 := by
    rcases hfb with h' | h'
    · rw [h']; exact hb
    · exact h'
  show SuppIn
    (if (uf.find a).1 = ((uf.find a).2.find b).1 then ((uf.find a).2.find b).2
     else
       if orOne (((uf.find a).2.find b).2.size.get (uf.find a).1) <
           orOne (((uf.find a).2.find b).2.size.get ((uf.find a).2.find b).1) then
         ⟨((uf.find a).2.find b).2.parent.set (uf.find a).1 ((uf.find a).2.find b).1,
          ((uf.find a).2.find b).2.size.set ((uf.find a).2.find b).1
            (orOne (((uf.find a).2.find b).2.size.get (uf.find a).1) +
             orOne (((uf.find a).2.find b).2.size.get ((uf.find a).2.find b).1))⟩
       else
         ⟨((uf.find a).2.find b).2.parent.set ((uf.find a).2.find b).1 (uf.find a).1,
          ((uf.find a).2.find b).2.size.set (uf.find a).1
            (orOne (((uf.find a).2.find b).2.size.get (uf.find a).1) +
             orOne (((uf.find a).2.find b).2.size.get ((uf.find a).2.find b).1))⟩).parent S
  by_cases hrr : (uf.find a).1 = ((uf.find a).2.find b).1
  · rw [if_pos hrr]
    exact hpb
  · rw [if_neg hrr]
    by_cases hsz : orOne (((uf.find a).2.find b).2.size.get (uf.find a).1) <
        orOne (((uf.find a).2.find b).2.size.get ((uf.find a).2.find b).1)
    · rw [if_pos hsz]
      exact suppIn_set hpb hSra hSrb
    · rw [if_neg hsz]
      exact suppIn_set hpb hSrb hSra

/-!  Initial state and runs of unions. -/

theorem makeUnionFind_selfparent (items : List String) :
    ∀ x, (makeUnionFind items).parent.get x = none ∨
      (makeUnionFind items).parent.get x = some x := by
  unfold makeUnionFind
  suffices H : ∀ (l : List String) (uf : UnionFind),
      (∀ x, uf.parent.get x = none ∨ uf.parent.get x = some x) →
      ∀ x, (l.foldl (fun uf x => ⟨uf.parent.set x x, uf.size.set x 1⟩) uf).parent.get x = none ∨
        (l.foldl (fun uf x => ⟨uf.parent.set x x, uf.size.set x 1⟩) uf).parent.get x = some x by
    exact H items ⟨SMap.empty, SMap.empty⟩ (fun x => Or.inl rfl)
  intro l
  induction l with
  | nil => intro uf h x; exact h x
  | cons a l ih =>
    intro uf h x
    refine ih ⟨uf.parent.set a a, uf.size.set a 1⟩ ?_ x
    intro z
    by_cases hza : z = a
    · rw [hza]
      exact Or.inr (SMap.get_set_self uf.parent a a)
    · rw [show (⟨uf.parent.set a a, uf.size.set a 1⟩ : UnionFind).parent = uf.parent.set a a from rfl]
      rw [SMap.get_set_ne uf.parent a z a hza]
      exact h z

theorem selfparent_rootOf {p : SMap String}
    (hself : ∀ x, p.get x = none ∨ p.get x = some x) :
    ∀ {x r : String}, RootOf p x r → r = x := by
  rintro x r ⟨k, hch⟩
  cases hch with
  | zero _ _ => rfl
  | succ _ y _ k2 hget hyx hy0 hch2 =>
    rcases hself x with h | h
    · rw [hget] at h; exact Option.noConfusion h
    · rw [hget] at h
      exact absurd (Option.some_inj.mp h) hyx

theorem makeUnionFind_ufInv (items : List String) :
    UFInv (makeUnionFind items).parent := by
  have hself := makeUnionFind_selfparent items
  refine ⟨fun _ => 0, ?_⟩
  intro x y hget hyx hy0
  rcases hself x with h | h
  · rw [hget] at h; exact Option.noConfusion h
  · rw [hget] at h
    exact absurd (Option.some_inj.mp h) hyx

theorem makeUnionFind_good (items : List String) :
    Good (makeUnionFind items) [] := by
  have hself := makeUnionFind_selfparent items
  constructor
  · exact makeUnionFind_ufInv items
  · intro x y
    rw [conn_nil_iff]
    constructor
    · rintro ⟨r, hx, hy⟩
      rw [← selfparent_rootOf hself hx, ← selfparent_rootOf hself hy]
    · rintro rfl
      refine ⟨x, ?_, ?_⟩ <;>
        · refine rootOf_self_of_isRoot ?_
          rcases hself x with h | h
          · exact Or.inl h
          · exact Or.inr (Or.inl h)

theorem makeUnionFind_supp {S : String → Prop} (items : List String)
    (h : ∀ i ∈ items, S i) : SuppIn (makeUnionFind items).parent S := by
  unfold makeUnionFind
  suffices H : ∀ (l : List String) (uf : UnionFind), (∀ i ∈ l, S i) →
      SuppIn uf.parent S →
      SuppIn (l.foldl (fun uf x => ⟨uf.parent.set x x, uf.size.set x 1⟩) uf).parent S by
    refine H items ⟨SMap.empty, SMap.empty⟩ h ?_
    intro k v hkv
    rw [SMap.get_empty] at hkv
    exact Option.noConfusion hkv
  intro l
  induction l with
  | nil => intro uf _ huf; exact huf
  | cons a l ih =>
    intro uf hl huf
    refine ih ⟨uf.parent.set a a, uf.size.set a 1⟩ (fun i hi => hl i (List.mem_cons_of_mem _ hi)) ?_
    have hSa : S a := hl a (List.mem_cons_self _ _)
    exact suppIn_set huf hSa hSa

def runUnions (uf : UnionFind) (pairs : List (String × String)) : UnionFind :=
  pairs.foldl (fun uf q => uf.union q.1 q.2) uf

theorem runUnions_append (uf : UnionFind) (l1 l2 : List (String × String)) :
    runUnions uf (l1 ++ l2) = runUnions (runUnions uf l1) l2 :=
  List.foldl_append _ _ l1 l2

theorem runUnions_good_aux :
    ∀ (rest : List (String × String)) (uf : UnionFind) (done : List (String × String)),
      Good uf done → (∀ q ∈ rest, q.1 ≠ "" ∧ q.2 ≠ "") →
      Good (runUnions uf rest) (done ++ rest) := by
  intro rest
  induction rest with
  | nil =>
    intro uf done h _
    simpa [runUnions] using h
  | cons q rest ih =>
    intro uf done h hps
    have hq := hps q (List.mem_cons_self _ _)
    have h1 := union_good uf done h q.1 q.2 hq.1 hq.2
    have h2 := ih (uf.union q.1 q.2) (done ++ [(q.1, q.2)]) h1
      (fun q' hq' => hps q' (List.mem_cons_of_mem _ hq'))
    have : done ++ [(q.1, q.2)] ++ rest = done ++ (q :: rest) := by
      rw [List.append_assoc]
      simp
    rw [this] at h2
    exact h2

theorem runUnions_good (items : List String) (pairs : List (String × String))
    (hps : ∀ q ∈ pairs, q.1 ≠ "" ∧ q.2 ≠ "") :
    Good (runUnions (makeUnionFind items) pairs) pairs := by
  have := runUnions_good_aux pairs (makeUnionFind items) [] (makeUnionFind_good items) hps
  simpa using this

theorem runUnions_ufInv :
    ∀ (pairs : List (String × String)) (uf : UnionFind), UFInv uf.parent →
      UFInv (runUnions uf pairs).parent := by
  intro pairs
  induction pairs with
  | nil => intro uf h; exact h
  | cons q rest ih =>
    intro uf h
    exact ih (uf.union q.1 q.2) (union_ufInv uf h q.1 q.2)

theorem runUnions_supp {S : String → Prop} :
    ∀ (pairs : List (String × String)) (uf : UnionFind), SuppIn uf.parent S →
      (∀ q ∈ pairs, S q.1 ∧ S q.2) → SuppIn (runUnions uf pairs).parent S := by
  intro pairs
  induction pairs with
  | nil => intro uf h _; exact h
  | cons q rest ih =>
    intro uf h hps
    have hq := hps q (List.mem_cons_self _ _)
    exact ih (uf.union q.1 q.2) (union_supp uf h q.1 q.2 hq.1 hq.2)
      (fun q' hq' => hps q' (List.mem_cons_of_mem _ hq'))

/-- The observable bridge: two `find`s on a well-formed state give equal
roots exactly for connected nodes. -/
theorem find_root_eq_iff (uf : UnionFind) (pairs : List (String × String))
    (hGood : Good uf pairs) (x y : String) :
    ((uf.find x).1 = (uf.find y).1) ↔ Conn pairs x y := by
  rcases hGood with ⟨hInv, hiff⟩
  obtain ⟨h1x, _, _, _, _⟩ := find_spec uf hInv x
  obtain ⟨h1y, _, _, _, _⟩ := find_spec uf hInv y
  rw [← hiff x y]
  constructor
  · intro h
    exact ⟨(uf.find x).1, h1x, h ▸ h1y⟩
  · rintro ⟨r, hx, hy⟩
    rw [rootOf_det h1x hx, rootOf_det h1y hy]

/-!  Each signal pass is a run of unions (with evidence recording): the
passes are re-expressed as `applyConns` over a computed connection list,
which projects to `runUnions` on the union-find component. -/

def applyConns (st : UFL) (cs : List (String × String × String)) : UFL :=
  cs.foldl (fun st c => (st.1.union c.1 c.2.1, addEvidence st.2 c.1 c.2.1 c.2.2)) st

def connsOfGroup (members : List String) (reason : String) :
    List (String × String × String) :=
  match members with
  | [] => []
  | [_] => []
  | first :: rest => rest.map (fun m => (first, m, reason))

theorem connectMany_eq_applyConns (st : UFL) (members : List String) (reason : String) :
    connectMany st members reason = applyConns st (connsOfGroup members reason) := by
  match members with
  | [] => rfl
  | [_] => rfl
  | first :: m :: rest =>
    simp only [connectMany, connsOfGroup, applyConns]
    rw [List.foldl_map]

theorem applyConns_append (st : UFL) (l1 l2 : List (String × String × String)) :
    applyConns st (l1 ++ l2) = applyConns (applyConns st l1) l2 :=
  List.foldl_append _ _ l1 l2

theorem foldl_applyConns {E : Type} (f : E → List (String × String × String)) :
    ∀ (es : List E) (st : UFL),
      es.foldl (fun st e => applyConns st (f e)) st = applyConns st (es.flatMap f) := by
  intro es
  induction es with
  | nil => intro st; rfl
  | cons e es ih =>
    intro st
    rw [List.foldl_cons, ih, List.flatMap_cons, applyConns_append]

/-- The connection list of one threshold-guarded pass over a feature map. -/
def passConns (thr : Nat) (tag : String) (m : SMap (List String)) :
    List (String × String × String) :=
  m.entries.flatMap (fun e =>
    if e.2.length < thr then [] else connsOfGroup e.2 (tag ++ e.1))

theorem pass_fold_eq_applyConns (thr : Nat) (tag : String) (m : SMap (List String))
    (st : UFL) :
    m.entries.foldl (fun st e =>
        if e.2.length < thr then st else connectMany st e.2 (tag ++ e.1)) st
      = applyConns st (passConns thr tag m) := by
  unfold passConns
  rw [← foldl_applyConns]
  have hcongr : ∀ (es : List (String × List String)) (st : UFL),
      es.foldl (fun st e =>
        if e.2.length < thr then st else connectMany st e.2 (tag ++ e.1)) st =
      es.foldl (fun st e =>
        applyConns st (if e.2.length < thr then [] else connsOfGroup e.2 (tag ++ e.1))) st := by
    intro es
    induction es with
    | nil => intro st; rfl
    | cons e es ih =>
      intro st
      rw [List.foldl_cons, List.foldl_cons, ih]
      congr 1
      by_cases hlen : e.2.length < thr
      · rw [if_pos hlen, if_pos hlen]; rfl
      · rw [if_neg hlen, if_neg hlen]
        exact connectMany_eq_applyConns st e.2 (tag ++ e.1)
  exact hcongr m.entries st

def allConns (input : GroupInput) : List (String × String × String) :=
  passConns 2 "Shared link: " (linkToActors input) ++
    (passConns 3 "Shared domain: " (domainToActors input) ++
      (passConns 4 "Shared handle stem: " (stemToActors input) ++
        (passConns 2 "Same handle across platforms: " (baseHandleToActors input) ++
          (passConns 2 "Shared wallet: " (walletToActors input) ++
            passConns 2 "Common funder: " (funderToWallets input)))))

theorem afterPasses_eq (input : GroupInput) :
    afterPasses input
      = applyConns (makeUnionFind input.actors, SMap.empty) (allConns input) := by
  unfold afterPasses allConns
  unfold commonFunderPass sharedWalletPass baseHandlePass handleStemPass
    sharedDomainPass sharedLinkPass
  rw [pass_fold_eq_applyConns 2 "Shared link: ", pass_fold_eq_applyConns 3 "Shared domain: ",
    pass_fold_eq_applyConns 4 "Shared handle stem: ",
    pass_fold_eq_applyConns 2 "Same handle across platforms: ",
    pass_fold_eq_applyConns 2 "Shared wallet: ",
    pass_fold_eq_applyConns 2 "Common funder: "]
  rw [applyConns_append, applyConns_append, applyConns_append, applyConns_append,
    applyConns_append]

def connPairs (cs : List (String × String × String)) : List (String × String) :=
  cs.map (fun c => (c.1, c.2.1))

theorem applyConns_fst (cs : List (String × String × String)) :
    ∀ st : UFL, (applyConns st cs).1 = runUnions st.1 (connPairs cs) := by
  induction cs with
  | nil => intro st; rfl
  | cons c cs ih =>
    intro st
    show (applyConns ((st.1.union c.1 c.2.1, addEvidence st.2 c.1 c.2.1 c.2.2) : UFL) cs).1 = _
    rw [ih]
    rfl

def allPairs (input : GroupInput) : List (String × String) :=
  connPairs (allConns input)

theorem afterPasses_fst (input : GroupInput) :
    (afterPasses input).1 = runUnions (makeUnionFind input.actors) (allPairs input) := by
  rw [afterPasses_eq]
  exact applyConns_fst _ _

/-- The run invariant, provided no performed union mentions the empty
string (the faithful `find` freezes nodes attached under `""`). -/
theorem afterPasses_good (input : GroupInput)
    (hps : ∀ q ∈ allPairs input, q.1 ≠ "" ∧ q.2 ≠ "") :
    Good (afterPasses input).1 (allPairs input) := by
  rw [afterPasses_fst]
  exact runUnions_good _ _ hps

/-- The acyclicity certificate needs no side condition. -/
theorem afterPasses_ufInv (input : GroupInput) :
    UFInv (afterPasses input).1.parent := by
  rw [afterPasses_fst]
  exact runUnions_ufInv _ _ (makeUnionFind_ufInv input.actors)

/-- All members of a connected group list are pairwise connected by its
connection pairs. -/
theorem conn_connsOfGroup {members : List String} {reason : String}
    (hlen : 2 ≤ members.length) {x y : String}
    (hx : x ∈ members) (hy : y ∈ members) :
    Conn (connPairs (connsOfGroup members reason)) x y := by
  match members, hlen with
  | first :: m :: rest, _ =>
    have hfirst : ∀ z ∈ first :: m :: rest,
        Conn (connPairs (connsOfGroup (first :: m :: rest) reason)) first z := by
      intro z hz
      rcases List.mem_cons.mp hz with hz | hz
      · rw [hz]; exact Conn.refl _
      · refine Conn.base first z ?_
        unfold connsOfGroup connPairs
        rw [List.map_map]
        exact List.mem_map.mpr ⟨z, hz, rfl⟩
    exact (hfirst x hx).symm.trans (hfirst y hy)

theorem mem_connPairs_append (l1 l2 : List (String × String × String)) :
    connPairs (l1 ++ l2) = connPairs l1 ++ connPairs l2 :=
  List.map_append _ l1 l2

/-!  Materialization: `rootToMembers` groups the actors by their stable
root, in actor order. -/

theorem find_fst_congr {uf1 uf2 : UnionFind} (h1 : UFInv uf1.parent)
    (h2 : UFInv uf2.parent)
    (heq : ∀ z s, RootOf uf2.parent z s ↔ RootOf uf1.parent z s) (a : String) :
    (uf2.find a).1 = (uf1.find a).1 := by
  obtain ⟨hr2, _, _, _, _⟩ := find_spec uf2 h2 a
  obtain ⟨hr1, _, _, _, _⟩ := find_spec uf1 h1 a
  exact rootOf_det ((heq _ _).mp hr2) hr1

/-- The member list of root `r`: the actors whose root is `r`, in input
order. -/
def membersOfRoot (uf : UnionFind) (actors : List String) (r : String) : List String :=
  actors.filter (fun a => (uf.find a).1 == r)

theorem rootToMembers_spec (uf : UnionFind) (hInv : UFInv uf.parent)
    (actors : List String) :
    (∀ r, ((rootToMembers uf actors).1.get r) =
        (if (membersOfRoot uf actors r).isEmpty then none
         else some (membersOfRoot uf actors r))) ∧
    (rootToMembers uf actors).1.keys.Nodup := by
  suffices H : ∀ (l : List String) (acc : SMap (List String)) (uf2 : UnionFind)
      (processed : List String),
      UFInv uf2.parent →
      (∀ z s, RootOf uf2.parent z s ↔ RootOf uf.parent z s) →
      acc.keys.Nodup →
      (∀ r, acc.get r =
        (if (membersOfRoot uf processed r).isEmpty then none
         else some (membersOfRoot uf processed r))) →
      (∀ r, (l.foldl (fun acc a =>
          let f := acc.2.find a
          (acc.1.set f.1 (((acc.1.get f.1).getD []) ++ [a]), f.2)) (acc, uf2)).1.get r =
        (if (membersOfRoot uf (processed ++ l) r).isEmpty then none
         else some (membersOfRoot uf (processed ++ l) r))) ∧
      (l.foldl (fun acc a =>
          let f := acc.2.find a
          (acc.1.set f.1 (((acc.1.get f.1).getD []) ++ [a]), f.2)) (acc, uf2)).1.keys.Nodup by
    have := H actors SMap.empty uf [] hInv (fun z s => Iff.rfl) List.nodup_nil
      (fun r => by unfold membersOfRoot; simp [SMap.get_empty])
    unfold rootToMembers
    exact ⟨(this.1 : _), this.2⟩
  intro l
  induction l with
  | nil =>
    intro acc uf2 processed _ _ hnd hget
    exact ⟨fun r => by simpa using hget r, hnd⟩
  | cons a l ih =>
    intro acc uf2 processed hInv2 heq hnd hget
    obtain ⟨hrfa, heq3, hInv3, _, _⟩ := find_spec uf2 hInv2 a
    have hfa : (uf2.find a).1 = (uf.find a).1 := find_fst_congr hInv hInv2 heq a
    rw [List.foldl_cons]
    have hstep := ih (acc.set (uf2.find a).1 (((acc.get (uf2.find a).1).getD []) ++ [a]))
      (uf2.find a).2 (processed ++ [a]) hInv3
      (fun z s => (heq3 z s).trans (heq z s))
      (SMap.nodup_keys_set _ _ _ hnd) ?_
    · refine ⟨fun r => ?_, hstep.2⟩
      have := hstep.1 r
      rw [List.append_assoc] at this
      simpa using this
    · intro r
      have hfilter : membersOfRoot uf (processed ++ [a]) r =
          membersOfRoot uf processed r ++
            (if ((uf.find a).1 == r) = true then [a] else []) := by
        unfold membersOfRoot
        rw [List.filter_append]
        congr 1
        rw [List.filter_cons, List.filter_nil]
      show ((acc.set (uf2.find a).1 ((acc.get (uf2.find a).1).getD [] ++ [a])).get r) = _
      rw [hfa]
      by_cases hcond : ((uf.find a).1 == r) = true
      · have hr : (uf.find a).1 = r := by simpa using hcond
        rw [hr, SMap.get_set_self, hfilter, hcond]
        have hbase := hget r
        by_cases hemp : (membersOfRoot uf processed r).isEmpty
        · rw [if_pos hemp] at hbase
          have hnil : membersOfRoot uf processed r = [] := List.isEmpty_iff.mp hemp
          rw [hbase, hnil]
          simp
        · rw [if_neg hemp] at hbase
          rw [hbase]
          simp
      · have hcond' : ((uf.find a).1 == r) = false := by simpa using hcond
        have hr : (uf.find a).1 ≠ r := by simpa using hcond'
        rw [SMap.get_set_ne _ _ _ _ (fun hc => hr hc.symm), hfilter, hcond']
        simpa using hget r

/-!  Components of the run, and the output-building loop. -/

def componentsOf (input : GroupInput) : List (List String) :=
  (rootToMembers (afterPasses input).1 input.actors).1.entries.map (fun e => e.2)

theorem computeControllerGroups_def (input : GroupInput) :
    computeControllerGroups input =
      (List.insertionSort groupLE
        (buildGroups (afterPasses input).2 input.minGroupSize (componentsOf input)
          0 SMap.empty).1,
       (buildGroups (afterPasses input).2 input.minGroupSize (componentsOf input)
          0 SMap.empty).2) := rfl

theorem mem_membersOfRoot (uf : UnionFind) (actors : List String) (r a : String) :
    a ∈ membersOfRoot uf actors r ↔ a ∈ actors ∧ (uf.find a).1 = r := by
  unfold membersOfRoot
  rw [List.mem_filter]
  simp

theorem entries_val_eq (input : GroupInput) :
    ∀ e ∈ (rootToMembers (afterPasses input).1 input.actors).1.entries,
      e.2 = membersOfRoot (afterPasses input).1 input.actors e.1 ∧ e.2 ≠ [] := by
  have hInv := afterPasses_ufInv input
  obtain ⟨hget, hnd⟩ := rootToMembers_spec (afterPasses input).1 hInv input.actors
  intro e he
  have hsome := SMap.get_of_mem_entries_nodup _ e.1 e.2 (by
    rw [show ((e.1, e.2) : String × List String) = e from rfl]; exact he) hnd
  rw [hget e.1] at hsome
  by_cases hemp : (membersOfRoot (afterPasses input).1 input.actors e.1).isEmpty
  · rw [if_pos hemp] at hsome
    exact absurd hsome (by simp)
  · rw [if_neg hemp] at hsome
    have hval : e.2 = membersOfRoot (afterPasses input).1 input.actors e.1 :=
      (Option.some_inj.mp hsome).symm
    refine ⟨hval, ?_⟩
    rw [hval]
    intro hc
    rw [hc] at hemp
    exact hemp rfl

theorem componentsOf_spec (input : GroupInput) :
    ∀ comp ∈ componentsOf input, ∃ r,
      comp = membersOfRoot (afterPasses input).1 input.actors r ∧ comp ≠ [] := by
  intro comp hcomp
  rcases List.mem_map.mp hcomp with ⟨e, he, heq⟩
  rcases entries_val_eq input e he with ⟨hval, hne⟩
  exact ⟨e.1, by rw [← heq, hval], by rw [← heq]; exact hne⟩

theorem componentsOf_pairwise (input : GroupInput) :
    (componentsOf input).Pairwise (fun c1 c2 => ∀ x, x ∈ c1 → x ∉ c2) := by
  have hInv := afterPasses_ufInv input
  obtain ⟨hget, hnd⟩ := rootToMembers_spec (afterPasses input).1 hInv input.actors
  unfold componentsOf
  rw [List.pairwise_map]
  have hkeys : (rootToMembers (afterPasses input).1 input.actors).1.entries.Pairwise
      (fun e1 e2 => e1.1 ≠ e2.1) := by
    have h2 : List.Pairwise (fun a b => a ≠ b)
        ((rootToMembers (afterPasses input).1 input.actors).1.entries.map
          (fun e => e.1)) := hnd
    exact List.pairwise_map.mp h2
  refine hkeys.imp_of_mem ?_
  intro e1 e2 he1 he2 hne x hx1 hx2
  rcases entries_val_eq input e1 he1 with ⟨hv1, _⟩
  rcases entries_val_eq input e2 he2 with ⟨hv2, _⟩
  rw [hv1, mem_membersOfRoot] at hx1
  rw [hv2, mem_membersOfRoot] at hx2
  exact hne (hx1.2 ▸ hx2.2 ▸ rfl)

theorem comp_unique_of_pairwise {comps : List (List String)}
    (hpw : comps.Pairwise (fun c1 c2 => ∀ x, x ∈ c1 → x ∉ c2))
    {c1 c2 : List String} {x : String}
    (h1 : c1 ∈ comps) (h2 : c2 ∈ comps) (hx1 : x ∈ c1) (hx2 : x ∈ c2) :
    c1 = c2 := by
  induction comps with
  | nil => simp at h1
  | cons c rest ih =>
    rw [List.pairwise_cons] at hpw
    rcases List.mem_cons.mp h1 with h1 | h1 <;> rcases List.mem_cons.mp h2 with h2 | h2
    · rw [h1, h2]
    · rw [h1] at hx1
      exact absurd hx2 (hpw.1 c2 h2 x hx1)
    · rw [h2] at hx2
      exact absurd hx1 (hpw.1 c1 h1 x hx2)
    · exact ih hpw.2 h1 h2

theorem mkGroup_members (led : SMap (List String)) (comp : List String) (id : Nat) :
    (mkGroup led comp id).members = List.insertionSort strLE comp := rfl

theorem mem_mkGroup_members {led : SMap (List String)} {comp : List String}
    {id : Nat} {x : String} :
    x ∈ (mkGroup led comp id).members ↔ x ∈ comp := by
  rw [mkGroup_members]
  exact (List.perm_insertionSort strLE comp).mem_iff

theorem buildGroups_mem_shape (led : SMap (List String)) (mgs : Int) :
    ∀ (comps : List (List String)) (n : Nat) (acc : SMap Nat)
      (g : ControllerGroup), g ∈ (buildGroups led mgs comps n acc).1 →
      ∃ comp ∈ comps, ¬((comp.length : Int) < max 2 mgs) ∧ ∃ id, g = mkGroup led comp id := by
  intro comps
  induction comps with
  | nil => intro n acc g hg; simp [buildGroups] at hg
  | cons comp rest ih =>
    intro n acc g hg
    by_cases hsmall : ((comp.length : Int) < max 2 mgs)
    · rw [show buildGroups led mgs (comp :: rest) n acc = buildGroups led mgs rest n acc by
        simp [buildGroups, hsmall]] at hg
      rcases ih n acc g hg with ⟨c, hc, hs, id, hgid⟩
      exact ⟨c, List.mem_cons_of_mem _ hc, hs, id, hgid⟩
    · rw [show buildGroups led mgs (comp :: rest) n acc =
          (mkGroup led comp n ::
            (buildGroups led mgs rest (n + 1)
              ((mkGroup led comp n).members.foldl
                (fun m a => m.set a (mkGroup led comp n).controllerId) acc)).1,
           (buildGroups led mgs rest (n + 1)
              ((mkGroup led comp n).members.foldl
                (fun m a => m.set a (mkGroup led comp n).controllerId) acc)).2) by
        simp [buildGroups, hsmall]] at hg
      rcases List.mem_cons.mp hg with hg | hg
      · exact ⟨comp, List.mem_cons_self _ _, hsmall, n, hg⟩
      · rcases ih _ _ g hg with ⟨c, hc, hs, id, hgid⟩
        exact ⟨c, List.mem_cons_of_mem _ hc, hs, id, hgid⟩

theorem buildGroups_ids (led : SMap (List String)) (mgs : Int) :
    ∀ (comps : List (List String)) (n : Nat) (acc : SMap Nat),
      ((buildGroups led mgs comps n acc).1.map (fun g => g.controllerId))
        = List.range' n (buildGroups led mgs comps n acc).1.length := by
  intro comps
  induction comps with
  | nil => intro n acc; rfl
  | cons comp rest ih =>
    intro n acc
    by_cases hsmall : ((comp.length : Int) < max 2 mgs)
    · rw [show buildGroups led mgs (comp :: rest) n acc = buildGroups led mgs rest n acc by
        simp [buildGroups, hsmall]]
      exact ih n acc
    · rw [show buildGroups led mgs (comp :: rest) n acc =
          (mkGroup led comp n ::
            (buildGroups led mgs rest (n + 1)
              ((mkGroup led comp n).members.foldl
                (fun m a => m.set a (mkGroup led comp n).controllerId) acc)).1,
           (buildGroups led mgs rest (n + 1)
              ((mkGroup led comp n).members.foldl
                (fun m a => m.set a (mkGroup led comp n).controllerId) acc)).2) by
        simp [buildGroups, hsmall]]
      show (mkGroup led comp n).controllerId ::
          ((buildGroups led mgs rest (n + 1) _).1.map (fun g => g.controllerId)) = _
      rw [ih (n + 1) _]
      rfl

theorem foldl_set_get_not_mem (v : Nat) (x : String) :
    ∀ (ms : List String) (m : SMap Nat), x ∉ ms →
      (ms.foldl (fun m a => m.set a v) m).get x = m.get x := by
  intro ms
  induction ms with
  | nil => intro m _; rfl
  | cons a ms ih =>
    intro m hx
    rw [List.foldl_cons]
    rw [ih (m.set a v) (fun hc => hx (List.mem_cons_of_mem _ hc))]
    exact SMap.get_set_ne m a x v (fun hc => hx (hc ▸ List.mem_cons_self _ _))

theorem foldl_set_get_mem (v : Nat) (x : String) :
    ∀ (ms : List String) (m : SMap Nat), x ∈ ms →
      (ms.foldl (fun m a => m.set a v) m).get x = some v := by
  intro ms
  induction ms with
  | nil => intro m hx; simp at hx
  | cons a ms ih =>
    intro m hx
    rw [List.foldl_cons]
    by_cases hmem : x ∈ ms
    · exact ih (m.set a v) hmem
    · have hxa : x = a := by
        rcases List.mem_cons.mp hx with h | h
        · exact h
        · exact absurd h hmem
      rw [foldl_set_get_not_mem v x ms _ hmem, hxa]
      exact SMap.get_set_self m a v

theorem buildGroups_map_unchanged (led : SMap (List String)) (mgs : Int) (x : String) :
    ∀ (comps : List (List String)) (n : Nat) (acc : SMap Nat),
      (∀ comp ∈ comps, ((comp.length : Int) < max 2 mgs) ∨ x ∉ comp) →
      (buildGroups led mgs comps n acc).2.get x = acc.get x := by
  intro comps
  induction comps with
  | nil => intro n acc _; rfl
  | cons comp rest ih =>
    intro n acc hcond
    by_cases hsmall : ((comp.length : Int) < max 2 mgs)
    · rw [show buildGroups led mgs (comp :: rest) n acc = buildGroups led mgs rest n acc by
        simp [buildGroups, hsmall]]
      exact ih n acc (fun c hc => hcond c (List.mem_cons_of_mem _ hc))
    · rw [show buildGroups led mgs (comp :: rest) n acc =
          (mkGroup led comp n ::
            (buildGroups led mgs rest (n + 1)
              ((mkGroup led comp n).members.foldl
                (fun m a => m.set a (mkGroup led comp n).controllerId) acc)).1,
           (buildGroups led mgs rest (n + 1)
              ((mkGroup led comp n).members.foldl
                (fun m a => m.set a (mkGroup led comp n).controllerId) acc)).2) by
        simp [buildGroups, hsmall]]
      show (buildGroups led mgs rest (n + 1) _).2.get x = acc.get x
      have hxcomp : x ∉ comp := by
        rcases hcond comp (List.mem_cons_self _ _) with h | h
        · exact absurd h hsmall
        · exact h
      rw [ih (n + 1) _ (fun c hc => hcond c (List.mem_cons_of_mem _ hc))]
      exact foldl_set_get_not_mem _ x _ acc
        (fun hc => hxcomp (mem_mkGroup_members.mp hc))

theorem buildGroups_map_mem (led : SMap (List String)) (mgs : Int) :
    ∀ (comps : List (List String)) (n : Nat) (acc : SMap Nat),
      comps.Pairwise (fun c1 c2 => ∀ x, x ∈ c1 → x ∉ c2) →
      ∀ g ∈ (buildGroups led mgs comps n acc).1, ∀ x ∈ g.members,
        (buildGroups led mgs comps n acc).2.get x = some g.controllerId := by
  intro comps
  induction comps with
  | nil => intro n acc _ g hg; simp [buildGroups] at hg
  | cons comp rest ih =>
    intro n acc hpw g hg x hx
    rw [List.pairwise_cons] at hpw
    by_cases hsmall : ((comp.length : Int) < max 2 mgs)
    · rw [show buildGroups led mgs (comp :: rest) n acc = buildGroups led mgs rest n acc by
        simp [buildGroups, hsmall]] at hg ⊢
      exact ih n acc hpw.2 g hg x hx
    · rw [show buildGroups led mgs (comp :: rest) n acc =
          (mkGroup led comp n ::
            (buildGroups led mgs rest (n + 1)
              ((mkGroup led comp n).members.foldl
                (fun m a => m.set a (mkGroup led comp n).controllerId) acc)).1,
           (buildGroups led mgs rest (n + 1)
              ((mkGroup led comp n).members.foldl
                (fun m a => m.set a (mkGroup led comp n).controllerId) acc)).2) by
        simp [buildGroups, hsmall]] at hg ⊢
      rcases List.mem_cons.mp hg with hg | hg
      · show (buildGroups led mgs rest (n + 1) _).2.get x = some g.controllerId
        rw [hg] at hx
        have hxc : x ∈ comp := mem_mkGroup_members.mp hx
        rw [buildGroups_map_unchanged led mgs x rest (n + 1) _
          (fun c hc => Or.inr (hpw.1 c hc x hxc))]
        rw [hg]
        exact foldl_set_get_mem _ x _ acc hx
      · exact ih (n + 1) _ hpw.2 g hg x hx

/-!  The score formula over genuine rational arithmetic. -/

theorem ite_add_shift (c : Prop) [Decidable c] (x k : ℚ) :
    (if c then x + k else x) = x + (if c then k else 0) := by
  split <;> simp

theorem mkRat_quarter : mkRat 1 4 = (0.25 : ℚ) := by
  rw [Rat.mkRat_eq_div]; norm_num

theorem mkRat_tenth : mkRat 1 10 = (0.10 : ℚ) := by
  rw [Rat.mkRat_eq_div]; norm_num

theorem mkRat_three_twentieths : mkRat 3 20 = (0.15 : ℚ) := by
  rw [Rat.mkRat_eq_div]; norm_num

theorem mkRat_one : mkRat 1 1 = (1 : ℚ) := by
  rw [Rat.mkRat_eq_div]; norm_num

theorem mkRat_ramp (n : Nat) : mkRat ((n : Int) - 2) 10 = ((n : ℚ) - 2) / 10 := by
  rw [Rat.mkRat_eq_div]
  push_cast
  ring

theorem scoreOf_eq (reasons : List String) (n : Nat) :
    scoreOf reasons n =
      min 1 ((0.25 : ℚ) + min (((n : ℚ) - 2) / 10) 0.25
        + (if reasons.any (fun r => startsWithStr r "Shared wallet:") = true
            then (0.25 : ℚ) else 0)
        + (if reasons.any (fun r => startsWithStr r "Common funder:") = true
            then (0.25 : ℚ) else 0)
        + (if reasons.any (fun r => startsWithStr r "Shared link:") = true
            then (0.15 : ℚ) else 0)
        + (if reasons.any (fun r => startsWithStr r "Shared domain:") = true
            then (0.10 : ℚ) else 0)) := by
  simp only [scoreOf, qadd_eq]
  rw [ite_add_shift, ite_add_shift, ite_add_shift, ite_add_shift]
  rw [mkRat_quarter, mkRat_tenth, mkRat_three_twentieths, mkRat_one, mkRat_ramp]
  rw [min_comm]

theorem mkGroup_props (led : SMap (List String)) (comp : List String) (id : Nat) :
    (mkGroup led comp id).score =
      scoreOf (collectReasons led (mkGroup led comp id).members)
        (mkGroup led comp id).members.length ∧
    (mkGroup led comp id).evidence =
      (collectReasons led (mkGroup led comp id).members).take 8 ∧
    List.Sorted strLE (mkGroup led comp id).members ∧
    (mkGroup led comp id).controllerId = id :=
  ⟨rfl, rfl, List.sorted_insertionSort strLE comp, rfl⟩

theorem mem_output_iff (input : GroupInput) (g : ControllerGroup) :
    g ∈ (computeControllerGroups input).1 ↔
      g ∈ (buildGroups (afterPasses input).2 input.minGroupSize (componentsOf input)
        0 SMap.empty).1 := by
  rw [computeControllerGroups_def]
  exact (List.perm_insertionSort groupLE _).mem_iff

/-!  Claim theorems. -/

/-- Claim C1: for every group returned by `computeControllerGroups`, the score
equals min(1, 0.25 + min((memberCount-2)/10, 0.25) + 0.25 if some collected
reason starts with "Shared wallet:" + 0.25 for "Common funder:" + 0.15 for
"Shared link:" + 0.10 for "Shared domain:"), where memberCount is the group's
member-list length and the indicators range over the accumulated (collected)
reason set of the group's sorted member list. -/
theorem claim_C1 (input : GroupInput) (g : ControllerGroup)
    (hg : g ∈ (computeControllerGroups input).1) :
    g.score =
      min 1 ((0.25 : ℚ)
        + min (((g.members.length : ℚ) - 2) / 10) 0.25
        + (if (collectReasons (afterPasses input).2 g.members).any
              (fun r => startsWithStr r "Shared wallet:") = true then (0.25 : ℚ) else 0)
        + (if (collectReasons (afterPasses input).2 g.members).any
              (fun r => startsWithStr r "Common funder:") = true then (0.25 : ℚ) else 0)
        + (if (collectReasons (afterPasses input).2 g.members).any
              (fun r => startsWithStr r "Shared link:") = true then (0.15 : ℚ) else 0)
        + (if (collectReasons (afterPasses input).2 g.members).any
              (fun r => startsWithStr r "Shared domain:") = true then (0.10 : ℚ) else 0)) := by
  rw [mem_output_iff] at hg
  rcases buildGroups_mem_shape _ _ _ _ _ g hg with ⟨comp, _, _, id, hgid⟩
  rw [hgid, (mkGroup_props (afterPasses input).2 comp id).1, scoreOf_eq]

def c1input : GroupInput :=
  { actors := ["x:alice", "y:alice"], linksByActor := ⟨[]⟩,
    bioByActor := ⟨[]⟩, handleStemByActor := ⟨[]⟩,
    sharedFundersByWallet := ⟨[]⟩, extraWalletsByActor := ⟨[]⟩,
    minGroupSize := 2 }

def c1group : ControllerGroup :=
  { controllerId := 0, members := ["x:alice", "y:alice"], score := mkRat 1 4,
    evidence := ["Same handle across platforms: alice"] }

theorem claim_C1_witness :
    c1group ∈ (computeControllerGroups c1input).1 ∧
    c1group.score =
      min 1 ((0.25 : ℚ)
        + min (((c1group.members.length : ℚ) - 2) / 10) 0.25
        + (if (collectReasons (afterPasses c1input).2 c1group.members).any
              (fun r => startsWithStr r "Shared wallet:") = true then (0.25 : ℚ) else 0)
        + (if (collectReasons (afterPasses c1input).2 c1group.members).any
              (fun r => startsWithStr r "Common funder:") = true then (0.25 : ℚ) else 0)
        + (if (collectReasons (afterPasses c1input).2 c1group.members).any
              (fun r => startsWithStr r "Shared link:") = true then (0.15 : ℚ) else 0)
        + (if (collectReasons (afterPasses c1input).2 c1group.members).any
              (fun r => startsWithStr r "Shared domain:") = true then (0.10 : ℚ) else 0)) :=
  ⟨by decide, claim_C1 c1input c1group (by decide)⟩

/-- Claim C5: a connected component below `max 2 minGroupSize` yields no output
group and none of its actors is a key of the returned actor → id map; the
singleton component is the special case `comp = [a]`. -/
theorem claim_C5 (input : GroupInput) (comp : List String) (a : String)
    (hcomp : comp ∈ componentsOf input) (ha : a ∈ comp)
    (hsmall : (comp.length : Int) < max 2 input.minGroupSize) :
    (computeControllerGroups input).2.get a = none ∧
      ∀ g ∈ (computeControllerGroups input).1, a ∉ g.members := by
  have hpw := componentsOf_pairwise input
  constructor
  · rw [computeControllerGroups_def]
    show (buildGroups (afterPasses input).2 input.minGroupSize (componentsOf input)
      0 SMap.empty).2.get a = none
    rw [buildGroups_map_unchanged _ _ a _ 0 SMap.empty ?cond]
    case cond =>
      intro c hc
      by_cases hcs : ((c.length : Int) < max 2 input.minGroupSize)
      · exact Or.inl hcs
      · right
        intro hac
        have hceq : comp = c := comp_unique_of_pairwise hpw hcomp hc ha hac
        rw [← hceq] at hcs
        exact hcs hsmall
    exact SMap.get_empty a
  · intro g hg hag
    rw [mem_output_iff] at hg
    rcases buildGroups_mem_shape _ _ _ _ _ g hg with ⟨c, hc, hbig, id, hgid⟩
    rw [hgid] at hag
    have hac : a ∈ c := mem_mkGroup_members.mp hag
    have hceq : comp = c := comp_unique_of_pairwise hpw hcomp hc ha hac
    rw [← hceq] at hbig
    exact hbig hsmall

def c5input : GroupInput :=
  { actors := ["solo", "x:alice", "y:alice"], linksByActor := ⟨[]⟩,
    bioByActor := ⟨[]⟩, handleStemByActor := ⟨[]⟩,
    sharedFundersByWallet := ⟨[]⟩, extraWalletsByActor := ⟨[]⟩,
    minGroupSize := 2 }

theorem claim_C5_witness :
    (computeControllerGroups c5input).2.get "solo" = none :=
  (claim_C5 c5input ["solo"] "solo" (by decide) (by decide) (by decide)).1

/-- Claim C6: group identifiers are consecutive from 0 in pre-sort component
enumeration order; the returned list is a permutation of the pre-sort list
(so identifiers are not renumbered) sorted by descending score with ties by
descending member count (`groupLE`); and the actor → id map sends every
grouped member to its group's pre-sort identifier. -/
theorem claim_C6 (input : GroupInput) :
    ((buildGroups (afterPasses input).2 input.minGroupSize (componentsOf input)
        0 SMap.empty).1.map (fun g => g.controllerId))
      = List.range (buildGroups (afterPasses input).2 input.minGroupSize
          (componentsOf input) 0 SMap.empty).1.length ∧
    List.Sorted groupLE (computeControllerGroups input).1 ∧
    (computeControllerGroups input).1.Perm
      (buildGroups (afterPasses input).2 input.minGroupSize (componentsOf input)
        0 SMap.empty).1 ∧
    (∀ g ∈ (buildGroups (afterPasses input).2 input.minGroupSize (componentsOf input)
        0 SMap.empty).1,
      ∀ m ∈ g.members, (computeControllerGroups input).2.get m = some g.controllerId) := by
  refine ⟨?_, ?_, ?_, ?_⟩
  · rw [buildGroups_ids, List.range_eq_range']
  · rw [computeControllerGroups_def]
    exact List.sorted_insertionSort groupLE _
  · rw [computeControllerGroups_def]
    exact List.perm_insertionSort groupLE _
  · intro g hg m hm
    rw [computeControllerGroups_def]
    exact buildGroups_map_mem _ _ _ 0 SMap.empty (componentsOf_pairwise input) g hg m hm

def c6input : GroupInput :=
  { actors := ["x:bob", "y:bob"], linksByActor := ⟨[]⟩,
    bioByActor := ⟨[]⟩, handleStemByActor := ⟨[]⟩,
    sharedFundersByWallet := ⟨[]⟩, extraWalletsByActor := ⟨[]⟩,
    minGroupSize := 2 }

def c6group : ControllerGroup :=
  { controllerId := 0, members := ["x:bob", "y:bob"], score := mkRat 1 4,
    evidence := ["Same handle across platforms: bob"] }

theorem claim_C6_witness :
    (computeControllerGroups c6input).2.get "x:bob" = some c6group.controllerId :=
  (claim_C6 c6input).2.2.2 c6group (by decide) "x:bob" (by decide)

/-- Claim C7 as stated is false on the code: member lists are sorted before
being returned, but evidence lists are returned in evidence-accumulation
order (ledger insertion order), not sorted.  With two shared links recorded
in the order `z-link`, `a-link`, the single group's evidence list is
`["Shared link: z-link", "Shared link: a-link"]`, which is not sorted. -/
def c7input : GroupInput :=
  { actors := ["a", "b"],
    linksByActor := ⟨[("a", ["z-link", "a-link"]), ("b", ["z-link", "a-link"])]⟩,
    bioByActor := ⟨[]⟩, handleStemByActor := ⟨[]⟩,
    sharedFundersByWallet := ⟨[]⟩, extraWalletsByActor := ⟨[]⟩,
    minGroupSize := 2 }

/-- Claim C7 counterexample: an input on which some returned group's evidence
list is not sorted, refuting "the evidence list is sorted". -/
theorem claim_C7_counterexample :
    ¬ (∀ g ∈ (computeControllerGroups c7input).1, List.Sorted strLE g.evidence) := by
  decide

/-- Claim C7 amended: every returned group's member list is sorted
lexicographically; the evidence list is not sorted but is the first (at most
8) reasons in evidence-accumulation order of the capped pairwise scan. -/
theorem claim_C7_amended (input : GroupInput) (g : ControllerGroup)
    (hg : g ∈ (computeControllerGroups input).1) :
    List.Sorted strLE g.members ∧
    g.evidence = (collectReasons (afterPasses input).2 g.members).take 8 := by
  rw [mem_output_iff] at hg
  rcases buildGroups_mem_shape _ _ _ _ _ g hg with ⟨comp, _, _, id, hgid⟩
  rw [hgid]
  exact ⟨(mkGroup_props (afterPasses input).2 comp id).2.2.1,
    (mkGroup_props (afterPasses input).2 comp id).2.1⟩

def c7group : ControllerGroup :=
  { controllerId := 0, members := ["a", "b"], score := mkRat 2 5,
    evidence := ["Shared link: z-link", "Shared link: a-link"] }

theorem claim_C7_amended_witness :
    List.Sorted strLE c7group.members ∧
    c7group.evidence = (collectReasons (afterPasses c7input).2 c7group.members).take 8 :=
  claim_C7_amended c7input c7group (by decide)

/-- Claim C10: there is an input on which a returned group's score includes
the shared-wallet indicator bonus (the indicator is checked over the full
accumulated reason set, which exceeds 8 because the scan stops only after a
whole pair's set is merged) while the returned evidence — the first 8
accumulated reasons — contains no string with that prefix.  Here the pair's
ledger holds 8 shared-link reasons followed by a shared-wallet reason: the
accumulated set has 9 reasons, the score is 0.25 + 0 + 0.25 (wallet) + 0.15
(link) = 0.65 = 13/20, and the evidence is the 8 link reasons only. -/
def c10input : GroupInput :=
  { actors := ["a", "b"],
    linksByActor := ⟨[("a", ["l1", "l2", "l3", "l4", "l5", "l6", "l7", "l8"]),
                     ("b", ["l1", "l2", "l3", "l4", "l5", "l6", "l7", "l8"])]⟩,
    bioByActor := ⟨[("a", "w 0xaaaaaaaaaaaaaaaaaaaaaaaaaaaaaaaaaaaaaaaa"),
                   ("b", "w 0xaaaaaaaaaaaaaaaaaaaaaaaaaaaaaaaaaaaaaaaa")]⟩,
    handleStemByActor := ⟨[]⟩,
    sharedFundersByWallet := ⟨[]⟩, extraWalletsByActor := ⟨[]⟩,
    minGroupSize := 2 }

theorem claim_C10 :
    ∃ (input : GroupInput), ∃ g ∈ (computeControllerGroups input).1,
      8 < (collectReasons (afterPasses input).2 g.members).length ∧
      (collectReasons (afterPasses input).2 g.members).any
        (fun r => startsWithStr r "Shared wallet:") = true ∧
      g.evidence.any (fun r => startsWithStr r "Shared wallet:") = false ∧
      g.evidence = (collectReasons (afterPasses input).2 g.members).take 8 ∧
      g.score = mkRat 13 20 := by
  refine ⟨c10input, ?_⟩
  decide

/-- Claim C9 counterexample: the union of the performed pair `("", "y")`
connects the two strings, yet their `find` roots differ afterwards —
`union("", "y")` attaches `"y"` under the root `""` and `find("y")` treats
the stored empty-string parent as missing (`if (!p) return x`), returning
`"y"`.  Reversing the single union's arguments (`union("y", "")` instead)
attaches `""` under `"y"` and does merge the two, so the outcome is not a
function of the connected pair either. -/
theorem claim_C9_counterexample :
    Conn [("", "y")] "" "y" ∧
    ((runUnions (makeUnionFind ["", "y"]) [("", "y")]).find "").1 ≠
      ((runUnions (makeUnionFind ["", "y"]) [("", "y")]).find "y").1 ∧
    ((runUnions (makeUnionFind ["", "y"]) [("y", "")]).find "").1 =
      ((runUnions (makeUnionFind ["", "y"]) [("y", "")]).find "y").1 := by
  refine ⟨Conn.base _ _ (by decide), by decide, by decide⟩

/-- Claim C9 amended: starting from `makeUnionFind` and performing any
sequence of unions none of which mentions the empty string, two strings
have equal `find` roots iff they are connected by a finite chain of the
performed unions, and the correspondence depends only on the set of
performed unions, not their order or multiplicity.  Unconditionally,
`find` on an unregistered string returns the string itself without
mutating the structure.  With an empty-string union endpoint the
equivalence fails (see the counterexample): the source `find` reads an
empty-string parent as missing, so a node attached under the root `""`
is frozen as its own root. -/
theorem claim_C9_amended (items : List String) (pairs pairs' : List (String × String))
    (a b x : String) (hps : ∀ q ∈ pairs, q.1 ≠ "" ∧ q.2 ≠ "") :
    (((runUnions (makeUnionFind items) pairs).find a).1 =
        ((runUnions (makeUnionFind items) pairs).find b).1 ↔ Conn pairs a b) ∧
    ((∀ q, q ∈ pairs ↔ q ∈ pairs') →
      (((runUnions (makeUnionFind items) pairs').find a).1 =
          ((runUnions (makeUnionFind items) pairs').find b).1 ↔
        ((runUnions (makeUnionFind items) pairs).find a).1 =
          ((runUnions (makeUnionFind items) pairs).find b).1)) ∧
    ((runUnions (makeUnionFind items) pairs).parent.get x = none →
      (runUnions (makeUnionFind items) pairs).find x =
        (x, runUnions (makeUnionFind items) pairs)) := by
  refine ⟨find_root_eq_iff _ pairs (runUnions_good items pairs hps) a b, ?_, ?_⟩
  · intro hmem
    have hps' : ∀ q ∈ pairs', q.1 ≠ "" ∧ q.2 ≠ "" :=
      fun q hq => hps q ((hmem q).mpr hq)
    rw [find_root_eq_iff _ pairs' (runUnions_good items pairs' hps') a b,
      find_root_eq_iff _ pairs (runUnions_good items pairs hps) a b]
    exact conn_same_mem (fun q => (hmem q).symm) a b
  · intro hnone
    exact find_of_get_none _ x hnone

theorem claim_C9_amended_witness :
    Conn [("u", "v")] "u" "v" ∧
    ((runUnions (makeUnionFind ["u", "v"]) [("u", "v")]).find "u").1 =
      ((runUnions (makeUnionFind ["u", "v"]) [("u", "v")]).find "v").1 ∧
    (((runUnions (makeUnionFind ["u", "v"]) [("u", "v"), ("u", "v")]).find "u").1 =
        ((runUnions (makeUnionFind ["u", "v"]) [("u", "v"), ("u", "v")]).find "v").1 ↔
      ((runUnions (makeUnionFind ["u", "v"]) [("u", "v")]).find "u").1 =
        ((runUnions (makeUnionFind ["u", "v"]) [("u", "v")]).find "v").1) ∧
    (runUnions (makeUnionFind ["u", "v"]) [("u", "v")]).find "w" =
      ("w", runUnions (makeUnionFind ["u", "v"]) [("u", "v")]) := by
  have hc : Conn [("u", "v")] "u" "v" := Conn.base _ _ (by simp)
  refine ⟨hc, ?_, ?_, ?_⟩
  · exact ((claim_C9_amended ["u", "v"] [("u", "v")] [] "u" "v" "w" (by decide)).1).mpr hc
  · exact (claim_C9_amended ["u", "v"] [("u", "v")] [("u", "v"), ("u", "v")] "u" "v" "w"
      (by decide)).2.1
      (by intro q; constructor <;> intro h <;> simpa using (by simpa using h))
  · exact (claim_C9_amended ["u", "v"] [("u", "v")] [] "u" "v" "w" (by decide)).2.2
      (by decide)

/-!  Membership lemmas for the JS-`Set` model, and lowercasing facts of the
wallet extraction. -/

theorem mem_addUnique (l : List String) (x y : String) :
    y ∈ addUnique l x ↔ y ∈ l ∨ y = x := by
  unfold addUnique
  by_cases h : l.contains x
  · rw [if_pos h]
    constructor
    · exact Or.inl
    · rintro (hy | hy)
      · exact hy
      · rw [hy]
        simpa using h
  · rw [if_neg h]
    simp

theorem mem_foldl_addUnique :
    ∀ (l acc : List String) (y : String),
      y ∈ l.foldl addUnique acc ↔ y ∈ acc ∨ y ∈ l := by
  intro l
  induction l with
  | nil => intro acc y; simp
  | cons x l ih =>
    intro acc y
    rw [List.foldl_cons, ih, mem_addUnique]
    constructor
    · rintro ((h | h) | h)
      · exact Or.inl h
      · exact Or.inr (h ▸ List.mem_cons_self _ _)
      · exact Or.inr (List.mem_cons_of_mem _ h)
    · rintro (h | h)
      · exact Or.inl (Or.inl h)
      · rcases List.mem_cons.mp h with h | h
        · exact Or.inl (Or.inr h)
        · exact Or.inr h

theorem mem_dedup (l : List String) (y : String) : y ∈ dedup l ↔ y ∈ l := by
  unfold dedup
  rw [mem_foldl_addUnique]
  simp

theorem scanEvmAux_lower :
    ∀ (fuel : Nat) (prev : Option Char) (cs : List Char) (w : String),
      w ∈ scanEvmAux fuel prev cs → ∃ raw, w = toLowerStr raw := by
  intro fuel
  induction fuel with
  | zero => intro prev cs w h; simp [scanEvmAux] at h
  | succ f ih =>
    intro prev cs w h
    match cs with
    | [] => simp [scanEvmAux] at h
    | c :: rest =>
      simp only [scanEvmAux] at h
      split at h
      · rcases List.mem_cons.mp h with h | h
        · exact ⟨String.mk ((c :: rest).take 42), h⟩
        · exact ih _ _ w h
      · exact ih _ _ w h

theorem extractEvm_lower (text w : String)
    (h : w ∈ extractEvmAddressesFromText text) : ∃ raw, w = toLowerStr raw :=
  scanEvmAux_lower _ _ _ w h

/-- Claim C3's scenario: an uppercase-hex extra wallet for `u` against the
same address lowercase in `v`'s bio. -/
def c3input : GroupInput :=
  { actors := ["u", "v"], linksByActor := ⟨[]⟩,
    bioByActor := ⟨[("v", "wallet 0xabcdef0123456789abcdef0123456789abcdef01")]⟩,
    handleStemByActor := ⟨[]⟩, sharedFundersByWallet := ⟨[]⟩,
    extraWalletsByActor := ⟨[("u", ["0xABCDEF0123456789ABCDEF0123456789ABCDEF01"])]⟩,
    minGroupSize := 2 }

/-- Claim C3 counterexample: externally-supplied extra wallets are NOT
lowercased before set membership.  `u`'s extra wallet (uppercase hex) and
`v`'s bio wallet (the same address, lowercase) stay two distinct map keys
with one sharer each, so no union happens and the output is empty —
refuting the claim that the pass treats them as one shared wallet. -/
theorem claim_C3_counterexample :
    walletsOfActor c3input "u" = ["0xABCDEF0123456789ABCDEF0123456789ABCDEF01"] ∧
    walletsOfActor c3input "v" = ["0xabcdef0123456789abcdef0123456789abcdef01"] ∧
    (computeControllerGroups c3input).1 = [] ∧
    (computeControllerGroups c3input).2 = ⟨[]⟩ := by
  decide

/-- Lowercase-extra variant: the extra wallet is supplied lowercase, the
bio mention is uppercase; bio extraction lowercases, so the strings agree
and the two actors are unioned. -/
def c3binput : GroupInput :=
  { actors := ["u", "v"], linksByActor := ⟨[]⟩,
    bioByActor := ⟨[("v", "wallet 0xABCDEF0123456789ABCDEF0123456789ABCDEF01")]⟩,
    handleStemByActor := ⟨[]⟩, sharedFundersByWallet := ⟨[]⟩,
    extraWalletsByActor := ⟨[("u", ["0xabcdef0123456789abcdef0123456789abcdef01"])]⟩,
    minGroupSize := 2 }

/-- Claim C3 amended: wallets extracted from bio and link text are
lowercased, and a wallet-shaped actor identifier is added lowercased, but
externally-supplied extra wallets are used verbatim (only shape-filtered,
never normalized).  Hence two actors sharing an address differing in case
are unioned only when the strings coincide after this partial
normalization — e.g. a lowercase extra wallet against an uppercase bio
mention — while the claim's uppercase-extra vs lowercase-bio input
produces no union. -/
theorem claim_C3_amended :
    (∀ (text w : String), w ∈ extractEvmAddressesFromText text →
      ∃ raw, w = toLowerStr raw) ∧
    (∀ (input : GroupInput) (a : String), looksLikeEvmAddress a = true →
      looksLikeEvmAddress (toLowerStr a) = true →
      toLowerStr a ∈ walletsOfActor input a) ∧
    (∀ (input : GroupInput) (a w : String),
      w ∈ (input.extraWalletsByActor.get a).getD [] →
      looksLikeEvmAddress w = true → w ∈ walletsOfActor input a) ∧
    ((computeControllerGroups c3binput).1.map (fun g => g.members) = [["u", "v"]]) ∧
    ((computeControllerGroups c3input).1 = []) := by
  refine ⟨extractEvm_lower, ?_, ?_, by decide, by decide⟩
  · intro input a hshape hlow
    unfold walletsOfActor
    rw [mem_dedup, List.mem_filter]
    refine ⟨?_, hlow⟩
    simp [List.mem_append, hshape]
  · intro input a w hw hshape
    unfold walletsOfActor
    rw [mem_dedup, List.mem_filter]
    refine ⟨?_, hshape⟩
    simp only [List.mem_append]
    exact Or.inl (Or.inr hw)

theorem claim_C3_amended_witness :
    "0xABCDEF0123456789ABCDEF0123456789ABCDEF01" ∈ walletsOfActor c3input "u" ∧
    toLowerStr "0xAAAAAAAAAAAAAAAAAAAAAAAAAAAAAAAAAAAAAAAA" ∈
      walletsOfActor c3input "0xAAAAAAAAAAAAAAAAAAAAAAAAAAAAAAAAAAAAAAAA" :=
  ⟨claim_C3_amended.2.2.1 c3input "u" "0xABCDEF0123456789ABCDEF0123456789ABCDEF01"
      (by decide) (by decide),
   claim_C3_amended.2.1 c3input "0xAAAAAAAAAAAAAAAAAAAAAAAAAAAAAAAAAAAAAAAA"
      (by decide) (by decide)⟩

/-!  Which strings the passes ever touch: the feature maps' member lists
are drawn from the actor list (passes 1, 2, 3b, 4), the handle-stem map's
keys (pass 3), or the funded-wallet keys (pass 5). -/

def valuesIn (m : SMap (List String)) (P : String → Prop) : Prop :=
  ∀ e ∈ m.entries, ∀ x ∈ e.2, P x

theorem valuesIn_empty (P : String → Prop) : valuesIn SMap.empty P := by
  intro e he
  simp [SMap.empty] at he

theorem mem_entries_set {α : Type} (m : SMap α) (k : String) (v : α) :
    ∀ e ∈ (m.set k v).entries, e = (k, v) ∨ e ∈ m.entries := by
  intro e he
  unfold SMap.set at he
  by_cases h : m.hasKey k
  · rw [if_pos h] at he
    rcases List.mem_map.mp he with ⟨e0, he0, heq⟩
    by_cases hk : (e0.1 == k) = true
    · rw [if_pos hk] at heq
      exact Or.inl heq.symm
    · rw [if_neg hk] at heq
      exact Or.inr (heq ▸ he0)
  · rw [if_neg h] at he
    rcases List.mem_append.mp he with he | he
    · exact Or.inr he
    · exact Or.inl (by simpa using he)

theorem valuesIn_addTo {m : SMap (List String)} {P : String → Prop}
    {k v : String} (h : valuesIn m P) (hv : P v) :
    valuesIn (m.set k (addUnique ((m.get k).getD []) v)) P := by
  intro e he x hx
  rcases mem_entries_set m k _ e he with he' | he'
  · rw [he'] at hx
    have hx' : x ∈ (m.get k).getD [] ∨ x = v := (mem_addUnique _ _ _).mp hx
    rcases hx' with hx' | hx'
    · cases hget : m.get k with
      | none => rw [hget] at hx'; simp at hx'
      | some l =>
        rw [hget] at hx'
        simp only [Option.getD_some] at hx'
        exact h (k, l) (SMap.mem_entries_of_get_some m k l hget) x hx'
    · exact hx' ▸ hv
  · exact h e he' x hx

theorem valuesIn_inner_fold {P : String → Prop} {v : String} (hv : P v) :
    ∀ (ks : List String) (m : SMap (List String)), valuesIn m P →
      valuesIn (ks.foldl (fun m k => m.set k (addUnique ((m.get k).getD []) v)) m) P := by
  intro ks
  induction ks with
  | nil => intro m h; exact h
  | cons k ks ih =>
    intro m h
    rw [List.foldl_cons]
    exact ih _ (valuesIn_addTo h hv)

theorem linkToActors_values (input : GroupInput) :
    valuesIn (linkToActors input) (fun x => x ∈ input.actors) := by
  unfold linkToActors
  have H : ∀ (l : List String), (∀ a ∈ l, a ∈ input.actors) →
      ∀ m, valuesIn m (fun x => x ∈ input.actors) →
      valuesIn (l.foldl (fun m a =>
        ((input.linksByActor.get a).getD []).foldl (fun m l =>
          m.set l (addUnique ((m.get l).getD []) a)) m) m)
        (fun x => x ∈ input.actors) := by
    intro l
    induction l with
    | nil => intro _ m h; exact h
    | cons a l ih =>
      intro hsub m h
      rw [List.foldl_cons]
      exact ih (fun b hb => hsub b (List.mem_cons_of_mem _ hb)) _
        (valuesIn_inner_fold (hsub a (List.mem_cons_self _ _)) _ m h)
  exact H input.actors (fun a ha => ha) SMap.empty (valuesIn_empty _)

theorem domainToActors_values (input : GroupInput) :
    valuesIn (domainToActors input) (fun x => x ∈ input.actors) := by
  unfold domainToActors
  have H : ∀ (l : List String), (∀ a ∈ l, a ∈ input.actors) →
      ∀ m, valuesIn m (fun x => x ∈ input.actors) →
      valuesIn (l.foldl (fun m a =>
        (dedup ((extractDomains ((input.linksByActor.get a).getD [])).filter
          (fun d => !(COMMON_DOMAINS.contains d)))).foldl
            (fun m d => m.set d (addUnique ((m.get d).getD []) a)) m) m)
        (fun x => x ∈ input.actors) := by
    intro l
    induction l with
    | nil => intro _ m h; exact h
    | cons a l ih =>
      intro hsub m h
      rw [List.foldl_cons]
      exact ih (fun b hb => hsub b (List.mem_cons_of_mem _ hb)) _
        (valuesIn_inner_fold (hsub a (List.mem_cons_self _ _)) _ m h)
  exact H input.actors (fun a ha => ha) SMap.empty (valuesIn_empty _)

theorem baseHandleToActors_values (input : GroupInput) :
    valuesIn (baseHandleToActors input) (fun x => x ∈ input.actors) := by
  unfold baseHandleToActors
  have H : ∀ (l : List String), (∀ a ∈ l, a ∈ input.actors) →
      ∀ m, valuesIn m (fun x => x ∈ input.actors) →
      valuesIn (l.foldl (fun m a =>
        match baseOfActor a with
        | none => m
        | some base => m.set base (addUnique ((m.get base).getD []) a)) m)
        (fun x => x ∈ input.actors) := by
    intro l
    induction l with
    | nil => intro _ m h; exact h
    | cons a l ih =>
      intro hsub m h
      rw [List.foldl_cons]
      refine ih (fun b hb => hsub b (List.mem_cons_of_mem _ hb)) _ ?_
      cases baseOfActor a with
      | none => exact h
      | some base => exact valuesIn_addTo h (hsub a (List.mem_cons_self _ _))
  exact H input.actors (fun a ha => ha) SMap.empty (valuesIn_empty _)

theorem walletToActors_values (input : GroupInput) :
    valuesIn (walletToActors input) (fun x => x ∈ input.actors) := by
  unfold walletToActors
  have H : ∀ (l : List String), (∀ a ∈ l, a ∈ input.actors) →
      ∀ m, valuesIn m (fun x => x ∈ input.actors) →
      valuesIn (l.foldl (fun m a =>
        (walletsOfActor input a).foldl (fun m w =>
          m.set w (addUnique ((m.get w).getD []) a)) m) m)
        (fun x => x ∈ input.actors) := by
    intro l
    induction l with
    | nil => intro _ m h; exact h
    | cons a l ih =>
      intro hsub m h
      rw [List.foldl_cons]
      exact ih (fun b hb => hsub b (List.mem_cons_of_mem _ hb)) _
        (valuesIn_inner_fold (hsub a (List.mem_cons_self _ _)) _ m h)
  exact H input.actors (fun a ha => ha) SMap.empty (valuesIn_empty _)

theorem stemToActors_values (input : GroupInput) :
    valuesIn (stemToActors input) (fun x => x ∈ input.handleStemByActor.keys) := by
  unfold stemToActors
  have H : ∀ (l : List (String × String)),
      (∀ e ∈ l, e.1 ∈ input.handleStemByActor.keys) →
      ∀ m, valuesIn m (fun x => x ∈ input.handleStemByActor.keys) →
      valuesIn (l.foldl (fun m e =>
        if e.2 == "" then m
        else m.set e.2 (addUnique ((m.get e.2).getD []) e.1)) m)
        (fun x => x ∈ input.handleStemByActor.keys) := by
    intro l
    induction l with
    | nil => intro _ m h; exact h
    | cons e l ih =>
      intro hsub m h
      rw [List.foldl_cons]
      refine ih (fun b hb => hsub b (List.mem_cons_of_mem _ hb)) _ ?_
      by_cases he : (e.2 == "") = true
      · rw [if_pos he]; exact h
      · rw [if_neg he]
        exact valuesIn_addTo h (hsub e (List.mem_cons_self _ _))
  refine H input.handleStemByActor.entries ?_ SMap.empty (valuesIn_empty _)
  intro e he
  exact List.mem_map.mpr ⟨e, he, rfl⟩

theorem funderToWallets_values (input : GroupInput) :
    valuesIn (funderToWallets input)
      (fun x => x ∈ input.sharedFundersByWallet.keys) := by
  unfold funderToWallets
  have H : ∀ (l : List (String × List String)),
      (∀ e ∈ l, e.1 ∈ input.sharedFundersByWallet.keys) →
      ∀ m, valuesIn m (fun x => x ∈ input.sharedFundersByWallet.keys) →
      valuesIn (l.foldl (fun m e =>
        e.2.foldl (fun m f =>
          if looksLikeEvmAddress f then m.set f (addUnique ((m.get f).getD []) e.1)
          else m) m) m)
        (fun x => x ∈ input.sharedFundersByWallet.keys) := by
    intro l
    induction l with
    | nil => intro _ m h; exact h
    | cons e l ih =>
      intro hsub m h
      rw [List.foldl_cons]
      refine ih (fun b hb => hsub b (List.mem_cons_of_mem _ hb)) _ ?_
      have Hin : ∀ (fs : List String) (m : SMap (List String)),
          valuesIn m (fun x => x ∈ input.sharedFundersByWallet.keys) →
          valuesIn (fs.foldl (fun m f =>
            if looksLikeEvmAddress f then m.set f (addUnique ((m.get f).getD []) e.1)
            else m) m) (fun x => x ∈ input.sharedFundersByWallet.keys) := by
        intro fs
        induction fs with
        | nil => intro m h; exact h
        | cons f fs ihf =>
          intro m h
          rw [List.foldl_cons]
          refine ihf _ ?_
          by_cases hf : looksLikeEvmAddress f
          · rw [if_pos hf]
            exact valuesIn_addTo h (hsub e (List.mem_cons_self _ _))
          · rw [if_neg hf]; exact h
      exact Hin e.2 m h
  refine H input.sharedFundersByWallet.entries ?_ SMap.empty (valuesIn_empty _)
  intro e he
  exact List.mem_map.mpr ⟨e, he, rfl⟩

theorem connsOfGroup_mem {members : List String} {reason : String} :
    ∀ c ∈ connsOfGroup members reason, c.1 ∈ members ∧ c.2.1 ∈ members := by
  intro c hc
  match members with
  | [] => simp [connsOfGroup] at hc
  | [_] => simp [connsOfGroup] at hc
  | first :: m :: rest =>
    rcases List.mem_map.mp hc with ⟨z, hz, heq⟩
    rw [← heq]
    exact ⟨List.mem_cons_self _ _, List.mem_cons_of_mem _ hz⟩

theorem passConns_source (thr : Nat) (tag : String) (m : SMap (List String)) :
    ∀ c ∈ passConns thr tag m, ∃ e ∈ m.entries,
      thr ≤ e.2.length ∧ c.1 ∈ e.2 ∧ c.2.1 ∈ e.2 := by
  intro c hc
  rcases List.mem_flatMap.mp hc with ⟨e, he, hce⟩
  by_cases hlen : e.2.length < thr
  · rw [if_pos hlen] at hce
    simp at hce
  · rw [if_neg hlen] at hce
    exact ⟨e, he, le_of_not_lt hlen, connsOfGroup_mem c hce⟩

theorem passConns_endpoints {P : String → Prop} {m : SMap (List String)}
    (h : valuesIn m P) (thr : Nat) (tag : String) :
    ∀ c ∈ passConns thr tag m, P c.1 ∧ P c.2.1 := by
  intro c hc
  rcases passConns_source thr tag m c hc with ⟨e, he, _, h1, h2⟩
  exact ⟨h e he c.1 h1, h e he c.2.1 h2⟩

/-- A node is touched by the resolver only if it is an actor, a key of the
handle-stem map, or a funded-wallet key of the funder map. -/
def nodeOK (input : GroupInput) (x : String) : Prop :=
  x ∈ input.actors ∨ x ∈ input.handleStemByActor.keys ∨
    x ∈ input.sharedFundersByWallet.keys

theorem allConns_endpoints (input : GroupInput) :
    ∀ c ∈ allConns input, nodeOK input c.1 ∧ nodeOK input c.2.1 := by
  intro c hc
  unfold allConns at hc
  rcases List.mem_append.mp hc with h | hc
  · rcases passConns_endpoints (linkToActors_values input) 2 _ c h with ⟨h1, h2⟩
    exact ⟨Or.inl h1, Or.inl h2⟩
  rcases List.mem_append.mp hc with h | hc
  · rcases passConns_endpoints (domainToActors_values input) 3 _ c h with ⟨h1, h2⟩
    exact ⟨Or.inl h1, Or.inl h2⟩
  rcases List.mem_append.mp hc with h | hc
  · rcases passConns_endpoints (stemToActors_values input) 4 _ c h with ⟨h1, h2⟩
    exact ⟨Or.inr (Or.inl h1), Or.inr (Or.inl h2)⟩
  rcases List.mem_append.mp hc with h | hc
  · rcases passConns_endpoints (baseHandleToActors_values input) 2 _ c h with ⟨h1, h2⟩
    exact ⟨Or.inl h1, Or.inl h2⟩
  rcases List.mem_append.mp hc with h | hc
  · rcases passConns_endpoints (walletToActors_values input) 2 _ c h with ⟨h1, h2⟩
    exact ⟨Or.inl h1, Or.inl h2⟩
  · rcases passConns_endpoints (funderToWallets_values input) 2 _ c hc with ⟨h1, h2⟩
    exact ⟨Or.inr (Or.inr h1), Or.inr (Or.inr h2)⟩

theorem allPairs_touch (input : GroupInput) {x y : String}
    (h : Conn (allPairs input) x y) :
    x = y ∨ (nodeOK input x ∧ nodeOK input y) := by
  rcases conn_touch h with h | ⟨⟨q, hq, hx⟩, ⟨q', hq', hy⟩⟩
  · exact Or.inl h
  · rcases List.mem_map.mp hq with ⟨c, hc, heq⟩
    rcases List.mem_map.mp hq' with ⟨c', hc', heq'⟩
    rcases allConns_endpoints input c hc with ⟨e1, e2⟩
    rcases allConns_endpoints input c' hc' with ⟨e1', e2'⟩
    refine Or.inr ⟨?_, ?_⟩
    · rcases hx with hx | hx
      · rw [hx, ← heq]; exact e1
      · rw [hx, ← heq]; exact e2
    · rcases hy with hy | hy
      · rw [hy, ← heq']; exact e1'
      · rw [hy, ← heq']; exact e2'

theorem nodeOK_ne_empty {input : GroupInput} {x : String} (hx : nodeOK input x)
    (h1 : "" ∉ input.actors) (h2 : "" ∉ input.handleStemByActor.keys)
    (h3 : "" ∉ input.sharedFundersByWallet.keys) : x ≠ "" := by
  rintro rfl
  rcases hx with h | h | h
  · exact h1 h
  · exact h2 h
  · exact h3 h

theorem allPairs_ne_empty (input : GroupInput)
    (h1 : "" ∉ input.actors) (h2 : "" ∉ input.handleStemByActor.keys)
    (h3 : "" ∉ input.sharedFundersByWallet.keys) :
    ∀ q ∈ allPairs input, q.1 ≠ "" ∧ q.2 ≠ "" := by
  intro q hq
  rcases List.mem_map.mp hq with ⟨c, hc, heq⟩
  rcases allConns_endpoints input c hc with ⟨e1, e2⟩
  rw [← heq]
  exact ⟨nodeOK_ne_empty e1 h1 h2 h3, nodeOK_ne_empty e2 h1 h2 h3⟩

/-- After all passes, every parent-map key and value is a touched node. -/
theorem afterPasses_supp (input : GroupInput) :
    SuppIn (afterPasses input).1.parent (nodeOK input) := by
  rw [afterPasses_fst]
  refine runUnions_supp _ _ (makeUnionFind_supp _ (fun i hi => Or.inl hi)) ?_
  intro q hq
  rcases List.mem_map.mp hq with ⟨c, hc, heq⟩
  rcases allConns_endpoints input c hc with ⟨e1, e2⟩
  rw [← heq]
  exact ⟨e1, e2⟩

theorem untouched_isolated (input : GroupInput) (w : String)
    (hw : ¬ nodeOK input w) :
    ((afterPasses input).1.find w).1 = w ∧
    ∀ a, a ≠ w →
      ((afterPasses input).1.find a).1 ≠ ((afterPasses input).1.find w).1 := by
  have hsupp := afterPasses_supp input
  have hwnone : (afterPasses input).1.parent.get w = none := by
    cases hget : (afterPasses input).1.parent.get w with
    | none => rfl
    | some v => exact absurd (hsupp w v hget).1 hw
  have hfw : ((afterPasses input).1.find w).1 = w := by
    rw [find_of_get_none _ w hwnone]
  refine ⟨hfw, ?_⟩
  intro a haw heq
  rw [hfw] at heq
  rcases find_supp (afterPasses input).1 hsupp a with ⟨hfa, _⟩
  rcases hfa with h | h
  · exact haw (h.symm.trans heq)
  · rw [heq] at h
    exact hw h

/-- Claim C4's first scenario: two actors sharing a wallet through their
bios; the wallet string itself never becomes a forest node. -/
def c4input : GroupInput :=
  { actors := ["a", "b"], linksByActor := ⟨[]⟩,
    bioByActor := ⟨[("a", "0xcdcdcdcdcdcdcdcdcdcdcdcdcdcdcdcdcdcdcdcd"),
                   ("b", "0xcdcdcdcdcdcdcdcdcdcdcdcdcdcdcdcdcdcdcdcd")]⟩,
    handleStemByActor := ⟨[]⟩, sharedFundersByWallet := ⟨[]⟩,
    extraWalletsByActor := ⟨[]⟩, minGroupSize := 2 }

/-- Claim C4's second scenario: two wallet-shaped actors in uppercase hex,
whose funded-wallet keys in `sharedFundersByWallet` are exactly the
(uppercase) actor identifiers, sharing one funder. -/
def c4binput : GroupInput :=
  { actors := ["0xAAAAAAAAAAAAAAAAAAAAAAAAAAAAAAAAAAAAAAAA",
               "0xBBBBBBBBBBBBBBBBBBBBBBBBBBBBBBBBBBBBBBBB"],
    linksByActor := ⟨[]⟩, bioByActor := ⟨[]⟩, handleStemByActor := ⟨[]⟩,
    sharedFundersByWallet :=
      ⟨[("0xAAAAAAAAAAAAAAAAAAAAAAAAAAAAAAAAAAAAAAAA",
          ["0xcccccccccccccccccccccccccccccccccccccccc"]),
        ("0xBBBBBBBBBBBBBBBBBBBBBBBBBBBBBBBBBBBBBBBB",
          ["0xcccccccccccccccccccccccccccccccccccccccc"])]⟩,
    extraWalletsByActor := ⟨[]⟩, minGroupSize := 2 }

/-- The same input with the funder map removed, to exhibit the change in
actor grouping caused by the funder-driven unions. -/
def c4binputNoFunders : GroupInput :=
  { actors := ["0xAAAAAAAAAAAAAAAAAAAAAAAAAAAAAAAAAAAAAAAA",
               "0xBBBBBBBBBBBBBBBBBBBBBBBBBBBBBBBBBBBBBBBB"],
    linksByActor := ⟨[]⟩, bioByActor := ⟨[]⟩, handleStemByActor := ⟨[]⟩,
    sharedFundersByWallet := ⟨[]⟩,
    extraWalletsByActor := ⟨[]⟩, minGroupSize := 2 }

/-- Claim C4 counterexample.  First part: the shared wallet
`0xcdcd…cd` puts actors a and b in one group, but the wallet string is not
a node connected to them — its root is itself, different from a's root,
and it has no parent entry.  Second part: no actor's extracted-wallet set
contains either (uppercase) funded-wallet key, yet the funder-driven
unions change the actor grouping: with the funder map the two actors form
a group, without it they form none. -/
theorem claim_C4_counterexample :
    ((computeControllerGroups c4input).1.map (fun g => g.members) = [["a", "b"]]) ∧
    ((afterPasses c4input).1.find "0xcdcdcdcdcdcdcdcdcdcdcdcdcdcdcdcdcdcdcdcd").1 ≠
      ((afterPasses c4input).1.find "a").1 ∧
    (afterPasses c4input).1.parent.get "0xcdcdcdcdcdcdcdcdcdcdcdcdcdcdcdcdcdcdcdcd"
      = none ∧
    (walletsOfActor c4binput "0xAAAAAAAAAAAAAAAAAAAAAAAAAAAAAAAAAAAAAAAA" =
      ["0xaaaaaaaaaaaaaaaaaaaaaaaaaaaaaaaaaaaaaaaa"]) ∧
    (walletsOfActor c4binput "0xBBBBBBBBBBBBBBBBBBBBBBBBBBBBBBBBBBBBBBBB" =
      ["0xbbbbbbbbbbbbbbbbbbbbbbbbbbbbbbbbbbbbbbbb"]) ∧
    ((computeControllerGroups c4binput).1.map (fun g => g.members) =
      [["0xAAAAAAAAAAAAAAAAAAAAAAAAAAAAAAAAAAAAAAAA",
        "0xBBBBBBBBBBBBBBBBBBBBBBBBBBBBBBBBBBBBBBBB"]]) ∧
    ((computeControllerGroups c4binputNoFunders).1 = []) := by
  decide

/-- Claim C4 amended: the shared-wallet pass unions only actor identifiers
with each other and never inserts the wallet string as a node; any string
that is neither an actor identifier, a handle-stem-map key, nor a
funded-wallet key of the funder map stays an isolated root connected to no
other node after all passes.  Funder-driven unions act on the funded-wallet
key strings verbatim, so they affect actor grouping exactly when those
strings are (or are connected to) actor identifiers, as in the
counterexample. -/
theorem claim_C4_amended :
    (∀ (input : GroupInput),
      ∀ c ∈ passConns 2 "Shared wallet: " (walletToActors input),
        c.1 ∈ input.actors ∧ c.2.1 ∈ input.actors) ∧
    (∀ (input : GroupInput) (w : String),
      w ∉ input.actors → w ∉ input.handleStemByActor.keys →
      w ∉ input.sharedFundersByWallet.keys →
      ((afterPasses input).1.find w).1 = w ∧
      ∀ a, a ≠ w →
        ((afterPasses input).1.find a).1 ≠ ((afterPasses input).1.find w).1) := by
  constructor
  · intro input c hc
    exact passConns_endpoints (walletToActors_values input) 2 _ c hc
  · intro input w h1 h2 h3
    exact untouched_isolated input w (by
      rintro (h | h | h)
      · exact h1 h
      · exact h2 h
      · exact h3 h)

theorem claim_C4_amended_witness :
    ((afterPasses c4input).1.find "0xcdcdcdcdcdcdcdcdcdcdcdcdcdcdcdcdcdcdcdcd").1 =
      "0xcdcdcdcdcdcdcdcdcdcdcdcdcdcdcdcdcdcdcdcd" ∧
    ((afterPasses c4input).1.find "a").1 ≠
      ((afterPasses c4input).1.find "0xcdcdcdcdcdcdcdcdcdcdcdcdcdcdcdcdcdcdcdcd").1 :=
  ⟨(claim_C4_amended.2 c4input "0xcdcdcdcdcdcdcdcdcdcdcdcdcdcdcdcdcdcdcdcd"
      (by decide) (by decide) (by decide)).1,
   (claim_C4_amended.2 c4input "0xcdcdcdcdcdcdcdcdcdcdcdcdcdcdcdcdcdcdcdcd"
      (by decide) (by decide) (by decide)).2 "a" (by decide)⟩

/-!  Threshold behavior of the signal passes. -/

theorem pass_entry_connected (input : GroupInput) (thr : Nat) (tag : String)
    (m : SMap (List String))
    (hn1 : "" ∉ input.actors) (hn2 : "" ∉ input.handleStemByActor.keys)
    (hn3 : "" ∉ input.sharedFundersByWallet.keys)
    (hsub : ∀ c ∈ passConns thr tag m, c ∈ allConns input)
    (hthr : 2 ≤ thr) :
    ∀ e ∈ m.entries, thr ≤ e.2.length →
      ∀ x ∈ e.2, ∀ y ∈ e.2,
        ((afterPasses input).1.find x).1 = ((afterPasses input).1.find y).1 := by
  intro e he hlen x hx y hy
  have h2 : 2 ≤ e.2.length := le_trans hthr hlen
  have hc : Conn (connPairs (connsOfGroup e.2 (tag ++ e.1))) x y :=
    conn_connsOfGroup h2 hx hy
  have hsub2 : ∀ q ∈ connPairs (connsOfGroup e.2 (tag ++ e.1)), q ∈ allPairs input := by
    intro q hq
    rcases List.mem_map.mp hq with ⟨c, hcmem, heq⟩
    refine List.mem_map.mpr ⟨c, ?_, heq⟩
    apply hsub
    unfold passConns
    refine List.mem_flatMap.mpr ⟨e, he, ?_⟩
    rw [if_neg (not_lt.mpr hlen)]
    exact hcmem
  exact (find_root_eq_iff _ _
    (afterPasses_good input (allPairs_ne_empty input hn1 hn2 hn3)) x y).mpr
    (conn_mono hsub2 hc)

def c2emptyS : SMap (List String) := ⟨[]⟩

def c2emptyB : SMap String := ⟨[]⟩

def c2dom3 : GroupInput := ⟨["a1", "a2", "a3"],
  ⟨[("a1", ["https://rare.example/1"]), ("a2", ["https://rare.example/2"]),
    ("a3", ["https://rare.example/3"])]⟩,
  c2emptyB, c2emptyB, c2emptyS, c2emptyS, 2⟩

def c2dom2 : GroupInput := ⟨["a1", "a2"],
  ⟨[("a1", ["https://rare.example/1"]), ("a2", ["https://rare.example/2"])]⟩,
  c2emptyB, c2emptyB, c2emptyS, c2emptyS, 2⟩

def c2stem4 : GroupInput := ⟨["s1", "s2", "s3", "s4"], c2emptyS, c2emptyB,
  ⟨[("s1", "al"), ("s2", "al"), ("s3", "al"), ("s4", "al")]⟩, c2emptyS, c2emptyS, 2⟩

def c2stem3 : GroupInput := ⟨["s1", "s2", "s3"], c2emptyS, c2emptyB,
  ⟨[("s1", "al"), ("s2", "al"), ("s3", "al")]⟩, c2emptyS, c2emptyS, 2⟩

def c2link2 : GroupInput := ⟨["a", "b"], ⟨[("a", ["l1"]), ("b", ["l1"])]⟩,
  c2emptyB, c2emptyB, c2emptyS, c2emptyS, 2⟩

def c2base2 : GroupInput :=
  ⟨["x:carol", "y:carol"], c2emptyS, c2emptyB, c2emptyB, c2emptyS, c2emptyS, 2⟩

def c2wallet2 : GroupInput := ⟨["p", "q"], c2emptyS,
  ⟨[("p", "0xdededededededededededededededededededede"),
    ("q", "0xdededededededededededededededededededede")]⟩,
  c2emptyB, c2emptyS, c2emptyS, 2⟩

def c2funder2 : GroupInput := ⟨["0xaaaaaaaaaaaaaaaaaaaaaaaaaaaaaaaaaaaaaaaa",
  "0xbbbbbbbbbbbbbbbbbbbbbbbbbbbbbbbbbbbbbbbb"], c2emptyS, c2emptyB, c2emptyB,
  ⟨[("0xaaaaaaaaaaaaaaaaaaaaaaaaaaaaaaaaaaaaaaaa",
      ["0xcccccccccccccccccccccccccccccccccccccccc"]),
    ("0xbbbbbbbbbbbbbbbbbbbbbbbbbbbbbbbbbbbbbbbb",
      ["0xcccccccccccccccccccccccccccccccccccccccc"])]⟩,
  c2emptyS, 2⟩

/-- The empty-string actor for the C2 counterexample: two actors `""` and
`"y"` share the exact link `l1`. -/
def c2blank : GroupInput := ⟨["", "y"], ⟨[("", ["l1"]), ("y", ["l1"])]⟩,
  c2emptyB, c2emptyB, c2emptyS, c2emptyS, 2⟩

/-- Claim C2 counterexample: the link `l1` is shared by the 2 actors `""`
and `"y"`, meeting the link pass's threshold, and the corresponding union
is performed — yet the two actors end with different `find` roots and no
group is produced.  `union("", "y")` attaches `"y"` under the root `""`,
and `find("y")` then reads the empty-string parent as missing (JS
falsiness of `if (!p) return x`) and returns `"y"` itself. -/
theorem claim_C2_counterexample :
    (∃ e ∈ (linkToActors c2blank).entries, 2 ≤ e.2.length ∧ "" ∈ e.2 ∧ "y" ∈ e.2) ∧
    ("", "y") ∈ allPairs c2blank ∧
    ((afterPasses c2blank).1.find "").1 ≠ ((afterPasses c2blank).1.find "y").1 ∧
    (computeControllerGroups c2blank).1 = [] := by
  refine ⟨⟨("l1", ["", "y"]), by decide, by decide, by decide, by decide⟩,
    by decide, by decide, by decide⟩

/-- Claim C2 amended: each pass unions a matching set iff its size meets
that pass's threshold, provided the empty string is not an actor, a
handle-stem-map key, or a funded-wallet key (otherwise a threshold-meeting
set can fail to merge, as the counterexample shows).  First conjunct
(unconditional): every union any pass performs comes from a feature set
meeting the pass's threshold (below-threshold sets contribute no unions).
Next six conjuncts: under the no-empty-string proviso, every feature set
meeting its threshold (link 2, domain 3, stem 4, base handle 2, wallet 2,
funder 2) has all its members in one component of the final forest.  Final
conjuncts pin the boundaries end to end: a domain shared by exactly 3
actors fires and by exactly 2 does not; a handle stem shared by exactly 4
fires and by exactly 3 does not; a shared link, base handle, wallet, or
funder with exactly 2 sharers fires. -/
theorem claim_C2_amended :
    (∀ (thr : Nat) (tag : String) (m : SMap (List String)),
      ∀ c ∈ passConns thr tag m, ∃ e ∈ m.entries,
        thr ≤ e.2.length ∧ c.1 ∈ e.2 ∧ c.2.1 ∈ e.2) ∧
    (∀ (input : GroupInput), "" ∉ input.actors →
      "" ∉ input.handleStemByActor.keys → "" ∉ input.sharedFundersByWallet.keys →
      ∀ e ∈ (linkToActors input).entries, 2 ≤ e.2.length →
      ∀ x ∈ e.2, ∀ y ∈ e.2,
        ((afterPasses input).1.find x).1 = ((afterPasses input).1.find y).1) ∧
    (∀ (input : GroupInput), "" ∉ input.actors →
      "" ∉ input.handleStemByActor.keys → "" ∉ input.sharedFundersByWallet.keys →
      ∀ e ∈ (domainToActors input).entries, 3 ≤ e.2.length →
      ∀ x ∈ e.2, ∀ y ∈ e.2,
        ((afterPasses input).1.find x).1 = ((afterPasses input).1.find y).1) ∧
    (∀ (input : GroupInput), "" ∉ input.actors →
      "" ∉ input.handleStemByActor.keys → "" ∉ input.sharedFundersByWallet.keys →
      ∀ e ∈ (stemToActors input).entries, 4 ≤ e.2.length →
      ∀ x ∈ e.2, ∀ y ∈ e.2,
        ((afterPasses input).1.find x).1 = ((afterPasses input).1.find y).1) ∧
    (∀ (input : GroupInput), "" ∉ input.actors →
      "" ∉ input.handleStemByActor.keys → "" ∉ input.sharedFundersByWallet.keys →
      ∀ e ∈ (baseHandleToActors input).entries, 2 ≤ e.2.length →
      ∀ x ∈ e.2, ∀ y ∈ e.2,
        ((afterPasses input).1.find x).1 = ((afterPasses input).1.find y).1) ∧
    (∀ (input : GroupInput), "" ∉ input.actors →
      "" ∉ input.handleStemByActor.keys → "" ∉ input.sharedFundersByWallet.keys →
      ∀ e ∈ (walletToActors input).entries, 2 ≤ e.2.length →
      ∀ x ∈ e.2, ∀ y ∈ e.2,
        ((afterPasses input).1.find x).1 = ((afterPasses input).1.find y).1) ∧
    (∀ (input : GroupInput), "" ∉ input.actors →
      "" ∉ input.handleStemByActor.keys → "" ∉ input.sharedFundersByWallet.keys →
      ∀ e ∈ (funderToWallets input).entries, 2 ≤ e.2.length →
      ∀ x ∈ e.2, ∀ y ∈ e.2,
        ((afterPasses input).1.find x).1 = ((afterPasses input).1.find y).1) ∧
    ((computeControllerGroups c2dom3).1.map (fun g => g.members) = [["a1", "a2", "a3"]]) ∧
    ((computeControllerGroups c2dom2).1 = []) ∧
    ((computeControllerGroups c2stem4).1.map (fun g => g.members) =
      [["s1", "s2", "s3", "s4"]]) ∧
    ((computeControllerGroups c2stem3).1 = []) ∧
    ((computeControllerGroups c2link2).1.map (fun g => g.members) = [["a", "b"]]) ∧
    ((computeControllerGroups c2base2).1.map (fun g => g.members) =
      [["x:carol", "y:carol"]]) ∧
    ((computeControllerGroups c2wallet2).1.map (fun g => g.members) = [["p", "q"]]) ∧
    ((computeControllerGroups c2funder2).1.map (fun g => g.members) =
      [["0xaaaaaaaaaaaaaaaaaaaaaaaaaaaaaaaaaaaaaaaa",
        "0xbbbbbbbbbbbbbbbbbbbbbbbbbbbbbbbbbbbbbbbb"]]) := by
  refine ⟨fun thr tag m => passConns_source thr tag m, ?_, ?_, ?_, ?_, ?_, ?_,
    by decide, by decide, by decide, by decide, by decide, by decide, by decide,
    by decide⟩
  · intro input h1 h2 h3
    exact pass_entry_connected input 2 "Shared link: " _ h1 h2 h3
      (fun c hc => by simp only [allConns, List.mem_append]; exact Or.inl hc)
      (by norm_num)
  · intro input h1 h2 h3
    exact pass_entry_connected input 3 "Shared domain: " _ h1 h2 h3
      (fun c hc => by
        simp only [allConns, List.mem_append]
        exact Or.inr (Or.inl hc))
      (by norm_num)
  · intro input h1 h2 h3
    exact pass_entry_connected input 4 "Shared handle stem: " _ h1 h2 h3
      (fun c hc => by
        simp only [allConns, List.mem_append]
        exact Or.inr (Or.inr (Or.inl hc)))
      (by norm_num)
  · intro input h1 h2 h3
    exact pass_entry_connected input 2 "Same handle across platforms: " _ h1 h2 h3
      (fun c hc => by
        simp only [allConns, List.mem_append]
        exact Or.inr (Or.inr (Or.inr (Or.inl hc))))
      (by norm_num)
  · intro input h1 h2 h3
    exact pass_entry_connected input 2 "Shared wallet: " _ h1 h2 h3
      (fun c hc => by
        simp only [allConns, List.mem_append]
        exact Or.inr (Or.inr (Or.inr (Or.inr (Or.inl hc)))))
      (by norm_num)
  · intro input h1 h2 h3
    exact pass_entry_connected input 2 "Common funder: " _ h1 h2 h3
      (fun c hc => by
        simp only [allConns, List.mem_append]
        exact Or.inr (Or.inr (Or.inr (Or.inr (Or.inr hc)))))
      (by norm_num)

theorem claim_C2_amended_witness :
    ((afterPasses c2link2).1.find "a").1 = ((afterPasses c2link2).1.find "b").1 :=
  claim_C2_amended.2.1 c2link2 (by decide) (by decide) (by decide)
    ("l1", ["a", "b"]) (by decide) (by decide) "a" (by decide) "b" (by decide)

/-!  Error-handling behavior: malformed links are skipped, missing map
entries read as empty collections, non-wallet-shaped strings are filtered
out. -/

theorem extractDomains_skip (l : String) (ls : List String)
    (h : parseUrlHostname l = none) :
    extractDomains (l :: ls) = extractDomains ls := by
  unfold extractDomains
  rw [List.filterMap_cons]
  rw [h]
  rfl

theorem linkToActors_reads (i1 i2 : GroupInput) (hact : i1.actors = i2.actors)
    (hread : ∀ b, (i1.linksByActor.get b).getD [] = (i2.linksByActor.get b).getD []) :
    linkToActors i1 = linkToActors i2 := by
  unfold linkToActors
  rw [hact]
  have H : ∀ (l : List String) (m : SMap (List String)),
      l.foldl (fun m a => ((i1.linksByActor.get a).getD []).foldl (fun m l =>
        m.set l (addUnique ((m.get l).getD []) a)) m) m =
      l.foldl (fun m a => ((i2.linksByActor.get a).getD []).foldl (fun m l =>
        m.set l (addUnique ((m.get l).getD []) a)) m) m := by
    intro l
    induction l with
    | nil => intro m; rfl
    | cons a l ih =>
      intro m
      rw [List.foldl_cons, List.foldl_cons, hread a, ih]
  exact H i2.actors SMap.empty

theorem domainToActors_reads (i1 i2 : GroupInput) (hact : i1.actors = i2.actors)
    (hread : ∀ b, (i1.linksByActor.get b).getD [] = (i2.linksByActor.get b).getD []) :
    domainToActors i1 = domainToActors i2 := by
  unfold domainToActors
  rw [hact]
  have H : ∀ (l : List String) (m : SMap (List String)),
      l.foldl (fun m a =>
        (dedup ((extractDomains ((i1.linksByActor.get a).getD [])).filter
          (fun d => !(COMMON_DOMAINS.contains d)))).foldl
            (fun m d => m.set d (addUnique ((m.get d).getD []) a)) m) m =
      l.foldl (fun m a =>
        (dedup ((extractDomains ((i2.linksByActor.get a).getD [])).filter
          (fun d => !(COMMON_DOMAINS.contains d)))).foldl
            (fun m d => m.set d (addUnique ((m.get d).getD []) a)) m) m := by
    intro l
    induction l with
    | nil => intro m; rfl
    | cons a l ih =>
      intro m
      rw [List.foldl_cons, List.foldl_cons, hread a, ih]
  exact H i2.actors SMap.empty

theorem walletsOfActor_reads (i1 i2 : GroupInput)
    (hbio : ∀ b, (i1.bioByActor.get b).getD "" = (i2.bioByActor.get b).getD "")
    (hread : ∀ b, (i1.linksByActor.get b).getD [] = (i2.linksByActor.get b).getD [])
    (hextra : ∀ b, (i1.extraWalletsByActor.get b).getD []
      = (i2.extraWalletsByActor.get b).getD []) :
    ∀ b, walletsOfActor i1 b = walletsOfActor i2 b := by
  intro b
  unfold walletsOfActor
  rw [hbio b, hread b, hextra b]

theorem walletToActors_reads (i1 i2 : GroupInput) (hact : i1.actors = i2.actors)
    (hwal : ∀ b, walletsOfActor i1 b = walletsOfActor i2 b) :
    walletToActors i1 = walletToActors i2 := by
  unfold walletToActors
  rw [hact]
  have H : ∀ (l : List String) (m : SMap (List String)),
      l.foldl (fun m a => (walletsOfActor i1 a).foldl (fun m w =>
        m.set w (addUnique ((m.get w).getD []) a)) m) m =
      l.foldl (fun m a => (walletsOfActor i2 a).foldl (fun m w =>
        m.set w (addUnique ((m.get w).getD []) a)) m) m := by
    intro l
    induction l with
    | nil => intro m; rfl
    | cons a l ih =>
      intro m
      rw [List.foldl_cons, List.foldl_cons, hwal a, ih]
  exact H i2.actors SMap.empty

theorem computeControllerGroups_defaults (input : GroupInput) (a : String)
    (h1 : input.linksByActor.get a = none) (h2 : input.bioByActor.get a = none)
    (h3 : input.extraWalletsByActor.get a = none) :
    computeControllerGroups
      { input with linksByActor := input.linksByActor.set a [],
                   bioByActor := input.bioByActor.set a "",
                   extraWalletsByActor := input.extraWalletsByActor.set a [] } =
    computeControllerGroups input := by
  have hrl : ∀ b, ((input.linksByActor.set a []).get b).getD []
      = (input.linksByActor.get b).getD [] := by
    intro b
    by_cases hba : b = a
    · rw [hba, SMap.get_set_self, h1]
      rfl
    · rw [SMap.get_set_ne _ _ _ _ hba]
  have hrb : ∀ b, ((input.bioByActor.set a "").get b).getD ""
      = (input.bioByActor.get b).getD "" := by
    intro b
    by_cases hba : b = a
    · rw [hba, SMap.get_set_self, h2]
      rfl
    · rw [SMap.get_set_ne _ _ _ _ hba]
  have hre : ∀ b, ((input.extraWalletsByActor.set a []).get b).getD []
      = (input.extraWalletsByActor.get b).getD [] := by
    intro b
    by_cases hba : b = a
    · rw [hba, SMap.get_set_self, h3]
      rfl
    · rw [SMap.get_set_ne _ _ _ _ hba]
  have hl := linkToActors_reads
    { input with linksByActor := input.linksByActor.set a [],
                 bioByActor := input.bioByActor.set a "",
                 extraWalletsByActor := input.extraWalletsByActor.set a [] }
    input rfl hrl
  have hd := domainToActors_reads
    { input with linksByActor := input.linksByActor.set a [],
                 bioByActor := input.bioByActor.set a "",
                 extraWalletsByActor := input.extraWalletsByActor.set a [] }
    input rfl hrl
  have hw := walletToActors_reads
    { input with linksByActor := input.linksByActor.set a [],
                 bioByActor := input.bioByActor.set a "",
                 extraWalletsByActor := input.extraWalletsByActor.set a [] }
    input rfl
    (walletsOfActor_reads _ input hrb hrl hre)
  have hap : afterPasses
      { input with linksByActor := input.linksByActor.set a [],
                   bioByActor := input.bioByActor.set a "",
                   extraWalletsByActor := input.extraWalletsByActor.set a [] } =
      afterPasses input := by
    unfold afterPasses commonFunderPass sharedWalletPass baseHandlePass
      handleStemPass sharedDomainPass sharedLinkPass
    rw [hl, hd, hw]
    rfl
  unfold computeControllerGroups
  rw [hap]

/-- Appending an empty-stem entry for a fresh actor leaves the stem
feature map unchanged: pass 3 skips falsy stems (`if (!stem) return`). -/
theorem stemToActors_set_empty (input : GroupInput) (a : String)
    (h : input.handleStemByActor.get a = none) :
    stemToActors { input with handleStemByActor := input.handleStemByActor.set a "" }
      = stemToActors input := by
  have hnk : a ∉ input.handleStemByActor.keys :=
    (SMap.get_none_iff_not_mem_keys _ a).mp h
  have hk : input.handleStemByActor.hasKey a = false := by
    cases hhk : input.handleStemByActor.hasKey a
    · rfl
    · exact absurd ((SMap.hasKey_iff_mem_keys _ a).mp hhk) hnk
  show (input.handleStemByActor.set a "").entries.foldl
      (fun m e => if e.2 == "" then m
        else m.set e.2 (addUnique ((m.get e.2).getD []) e.1)) SMap.empty
    = input.handleStemByActor.entries.foldl
      (fun m e => if e.2 == "" then m
        else m.set e.2 (addUnique ((m.get e.2).getD []) e.1)) SMap.empty
  rw [SMap.entries_set_of_not_has _ _ _ hk, List.foldl_append]
  simp

/-- A missing `handleStemByActor` entry behaves exactly like a present
entry with the empty (falsy) stem. -/
theorem computeControllerGroups_stem_default (input : GroupInput) (a : String)
    (h : input.handleStemByActor.get a = none) :
    computeControllerGroups
      { input with handleStemByActor := input.handleStemByActor.set a "" }
      = computeControllerGroups input := by
  have hst := stemToActors_set_empty input a h
  have hap : afterPasses
      { input with handleStemByActor := input.handleStemByActor.set a "" }
      = afterPasses input := by
    unfold afterPasses commonFunderPass sharedWalletPass baseHandlePass
      handleStemPass sharedDomainPass sharedLinkPass
    rw [hst]
    rfl
  unfold computeControllerGroups
  rw [hap]

theorem funderToWallets_keys_shaped (input : GroupInput) :
    ∀ k ∈ (funderToWallets input).keys, looksLikeEvmAddress k = true := by
  unfold funderToWallets
  have H : ∀ (l : List (String × List String)) (m : SMap (List String)),
      (∀ k ∈ m.keys, looksLikeEvmAddress k = true) →
      ∀ k ∈ (l.foldl (fun m e =>
        e.2.foldl (fun m f =>
          if looksLikeEvmAddress f then m.set f (addUnique ((m.get f).getD []) e.1)
          else m) m) m).keys, looksLikeEvmAddress k = true := by
    intro l
    induction l with
    | nil => intro m h; exact h
    | cons e l ih =>
      intro m h
      rw [List.foldl_cons]
      refine ih _ ?_
      have Hin : ∀ (fs : List String) (m : SMap (List String)),
          (∀ k ∈ m.keys, looksLikeEvmAddress k = true) →
          ∀ k ∈ (fs.foldl (fun m f =>
            if looksLikeEvmAddress f then m.set f (addUnique ((m.get f).getD []) e.1)
            else m) m).keys, looksLikeEvmAddress k = true := by
        intro fs
        induction fs with
        | nil => intro m h; exact h
        | cons f fs ihf =>
          intro m h
          rw [List.foldl_cons]
          refine ihf _ ?_
          by_cases hf : looksLikeEvmAddress f
          · rw [if_pos hf]
            intro k hk
            by_cases hhas : m.hasKey f
            · rw [SMap.keys_set_of_has _ _ _ hhas] at hk
              exact h k hk
            · rw [SMap.keys_set_of_not_has _ _ _ (by simpa using hhas)] at hk
              rcases List.mem_append.mp hk with hk | hk
              · exact h k hk
              · have : k = f := by simpa using hk
                rw [this]
                exact hf
          · rw [if_neg hf]; exact h
      exact Hin e.2 m h
  exact H input.sharedFundersByWallet.entries SMap.empty (by intro k hk; simp [SMap.empty, SMap.keys] at hk)

/-- Claim C8: the resolver is total — every input yields a value, with no
exceptional paths: links that fail URL parsing are skipped by
`extractDomains`; an actor absent from the per-actor maps behaves exactly
as one present with empty link list, empty bio and empty extra-wallet
list, and an actor absent from the handle-stem map behaves exactly as one
present with the empty (falsy, skipped) stem; and non-wallet-shaped
strings are filtered out, never becoming funder keys or actor wallets. -/
theorem claim_C8 :
    (∀ input : GroupInput, ∃ out, computeControllerGroups input = out) ∧
    (∀ (l : String) (ls : List String), parseUrlHostname l = none →
      extractDomains (l :: ls) = extractDomains ls) ∧
    (parseUrlHostname "not a url" = none) ∧
    (extractDomains ["not a url", "https://ok.example/x"] = ["ok.example"]) ∧
    (∀ (input : GroupInput) (a : String),
      input.linksByActor.get a = none → input.bioByActor.get a = none →
      input.extraWalletsByActor.get a = none →
      computeControllerGroups
        { input with linksByActor := input.linksByActor.set a [],
                     bioByActor := input.bioByActor.set a "",
                     extraWalletsByActor := input.extraWalletsByActor.set a [] } =
      computeControllerGroups input) ∧
    (∀ (input : GroupInput) (a : String),
      input.handleStemByActor.get a = none →
      computeControllerGroups
        { input with handleStemByActor := input.handleStemByActor.set a "" } =
      computeControllerGroups input) ∧
    (∀ (input : GroupInput) (w : String), looksLikeEvmAddress w = false →
      (∀ e ∈ (funderToWallets input).entries, e.1 ≠ w) ∧
      (∀ a, w ∉ walletsOfActor input a)) := by
  refine ⟨fun input => ⟨computeControllerGroups input, rfl⟩,
    extractDomains_skip, by decide, by decide,
    computeControllerGroups_defaults, computeControllerGroups_stem_default, ?_⟩
  intro input w hw
  constructor
  · intro e he hek
    have hkey : e.1 ∈ (funderToWallets input).keys := List.mem_map.mpr ⟨e, he, rfl⟩
    have := funderToWallets_keys_shaped input e.1 hkey
    rw [hek, hw] at this
    exact Bool.false_ne_true this
  · intro a hmem
    unfold walletsOfActor at hmem
    rw [mem_dedup, List.mem_filter] at hmem
    rw [hw] at hmem
    exact Bool.false_ne_true hmem.2

def c8input : GroupInput :=
  { actors := ["u", "ghost"], linksByActor := ⟨[("u", ["l1"])]⟩,
    bioByActor := ⟨[]⟩, handleStemByActor := ⟨[]⟩,
    sharedFundersByWallet := ⟨[("0xeeeeeeeeeeeeeeeeeeeeeeeeeeeeeeeeeeeeeeee",
      ["not-a-wallet"])]⟩,
    extraWalletsByActor := ⟨[]⟩, minGroupSize := 2 }

theorem claim_C8_witness :
    extractDomains ["not a url", "https://ok.example/x"]
      = extractDomains ["https://ok.example/x"] ∧
    computeControllerGroups
      { c8input with linksByActor := c8input.linksByActor.set "ghost" [],
                     bioByActor := c8input.bioByActor.set "ghost" "",
                     extraWalletsByActor := c8input.extraWalletsByActor.set "ghost" [] }
      = computeControllerGroups c8input ∧
    computeControllerGroups
      { c8input with handleStemByActor := c8input.handleStemByActor.set "ghost" "" }
      = computeControllerGroups c8input ∧
    "not-a-wallet" ∉ walletsOfActor c8input "u" :=
  ⟨claim_C8.2.1 "not a url" ["https://ok.example/x"] (by decide),
   claim_C8.2.2.2.2.1 c8input "ghost" (by decide) (by decide) (by decide),
   claim_C8.2.2.2.2.2.1 c8input "ghost" (by decide),
   (claim_C8.2.2.2.2.2.2 c8input "not-a-wallet" (by decide)).2 "u"⟩
